import Mathlib

/-!
RSS Guard: the account-scoped storage operations of `ServiceRoot`, the
assembling of the item tree, the selection-driven slots and the expand states
of the feeds view, the uniqueness check of the shortcut bindings, and the
listing of the installed skins.

A shallow embedding of `src/services/abstract/serviceroot.cpp`,
`src/gui/feedsview.cpp`, `src/dynamic-shortcuts/dynamicshortcutswidget.cpp` and
`src/miscellaneous/skinfactory.cpp`.

* The relational store is explicit state: four tables of rows, plus the
  snapshot an open transaction would restore on rollback.
* Every call into the SQL driver (`transaction`, `exec`, `commit`,
  `rollback`) answers with a `Bool`.  The answer is not computed by the
  program, so it is an input of the embedding: one answer per call site.
* Everything the functions do that is visible from outside (driver calls,
  log lines, emitted signals, the call of `updateCounts`) is appended to a
  chronological event log.
-/

namespace RssGuard

/-! Data model -/

/-- Modelled from the spec: the `RootItem::ReadStatus` enumeration, declared in
`rootitem.h` (not among the sources).  The spec names the two values "read" and
"unread"; the code only ever tests `status == RootItem::Read`. -/
inductive ReadStatus where
  | Unread
  | Read
deriving DecidableEq, Repr

/-- One row of table `Messages`.  The four named columns are the ones the
statements of `serviceroot.cpp` mention; `rest` stands for all remaining
columns of the row. -/
structure MessageRow where
  account_id : Int
  is_read : Int
  is_deleted : Int
  is_pdeleted : Int
  rest : List Int
deriving DecidableEq, Repr

/-- One row of table `Feeds`. -/
structure FeedRow where
  account_id : Int
  rest : List Int
deriving DecidableEq, Repr

/-- One row of table `Categories`. -/
structure CategoryRow where
  account_id : Int
  rest : List Int
deriving DecidableEq, Repr

/-- One row of table `Accounts`. -/
structure AccountRow where
  id : Int
  rest : List Int
deriving DecidableEq, Repr

/-- The four tables the statements of `ServiceRoot` touch. -/
structure Tables where
  Messages : List MessageRow
  Feeds : List FeedRow
  Categories : List CategoryRow
  Accounts : List AccountRow
deriving DecidableEq, Repr

/-- The SQL statements that `serviceroot.cpp` executes and that change data,
with their bound values. -/
inductive Statement where
  /-- Statement `DELETE FROM Messages WHERE account_id = %1;` -/
  | deleteMessages (account_id : Int)
  /-- Statement `DELETE FROM Feeds WHERE account_id = %1;` -/
  | deleteFeeds (account_id : Int)
  /-- Statement `DELETE FROM Categories WHERE account_id = %1;` -/
  | deleteCategories (account_id : Int)
  /-- Statement `DELETE FROM Accounts WHERE id = %1;` -/
  | deleteAccounts (id : Int)
  /-- Statement `UPDATE Messages SET is_read = :read WHERE is_pdeleted = 0 AND account_id = :account_id;` -/
  | updateMessagesRead (read : Int) (account_id : Int)
deriving DecidableEq, Repr

/-- What a statement does to the tables when the driver executes it
successfully. -/
def Statement.run : Statement → Tables → Tables
  | .deleteMessages a, t =>
      { t with Messages := t.Messages.filter (fun r => decide (r.account_id ≠ a)) }
  | .deleteFeeds a, t =>
      { t with Feeds := t.Feeds.filter (fun r => decide (r.account_id ≠ a)) }
  | .deleteCategories a, t =>
      { t with Categories := t.Categories.filter (fun r => decide (r.account_id ≠ a)) }
  | .deleteAccounts a, t =>
      { t with Accounts := t.Accounts.filter (fun r => decide (r.id ≠ a)) }
  | .updateMessagesRead v a, t =>
      { t with Messages := t.Messages.map (fun r =>
          if r.is_pdeleted = 0 ∧ r.account_id = a then { r with is_read := v } else r) }

/-- Everything observable a `ServiceRoot` operation does, in order. -/
inductive Event where
  /-- Call of `QSqlDatabase::transaction()`, which answered `ok`. -/
  | transaction (ok : Bool)
  /-- A statement was executed (`QSqlQuery::exec`) and answered `ok`. -/
  | exec (s : Statement) (ok : Bool)
  /-- Call of `QSqlDatabase::commit()`, which answered `ok`. -/
  | commit (ok : Bool)
  /-- Call of `QSqlDatabase::rollback()`, which answered `ok`. -/
  | rollback (ok : Bool)
  /-- A `qWarning(...)` line was written. -/
  | qWarning
  /-- A `qDebug(...)` line was written. -/
  | qDebug
  /-- Call of `updateCounts(including_total_count)` on the service root. -/
  | updateCounts (including_total_count : Bool)
  /-- Signal `dataChanged(getSubTree())` of the root with this account id. -/
  | dataChanged (account : Int)
  /-- Signal `reloadMessageListRequested(mark_selected_messages_read)`. -/
  | reloadMessageListRequested (mark_selected_messages_read : Bool)
  /-- Signal `itemRemovalRequested(item)` for the root with this account id. -/
  | itemRemovalRequested (account : Int)
deriving DecidableEq, Repr

/-- The state around a `ServiceRoot` call: the tables as the connection sees
them, the snapshot a rollback would restore (present while a transaction is
open), and the event log. -/
structure World where
  tables : Tables
  saved : Option Tables
  log : List Event
deriving DecidableEq, Repr

/-- Append one event to the log. -/
def World.emit (w : World) (e : Event) : World :=
  { w with log := w.log ++ [e] }

/-- The driver call `db_handle.transaction()`, answering `ok`. -/
def World.transaction (w : World) (ok : Bool) : Bool × World :=
  let w := w.emit (.transaction ok)
  (ok, if ok then { w with saved := some w.tables } else w)

/-- The driver call `QSqlQuery::exec` of statement `s`, answering `ok`.  A
statement that fails changes nothing. -/
def World.exec (w : World) (s : Statement) (ok : Bool) : Bool × World :=
  let w := w.emit (.exec s ok)
  (ok, if ok then { w with tables := s.run w.tables } else w)

/-- The driver call `db_handle.commit()`, answering `ok`. -/
def World.commit (w : World) (ok : Bool) : Bool × World :=
  let w := w.emit (.commit ok)
  (ok, if ok then { w with saved := none } else w)

/-- The driver call `db_handle.rollback()`, answering `ok`: on success the
tables are back at the snapshot of the open transaction, if there is one. -/
def World.rollback (w : World) (ok : Bool) : Bool × World :=
  let w := w.emit (.rollback ok)
  (ok, if ok then
         match w.saved with
         | some t => { w with tables := t, saved := none }
         | none => w
       else w)

/-- A `ServiceRoot`: the only member the two operations read is
`m_accountId`. -/
structure ServiceRoot where
  m_accountId : Int
deriving DecidableEq, Repr

/-- Source function `ServiceRoot::accountId`. -/
def ServiceRoot.accountId (self : ServiceRoot) : Int :=
  self.m_accountId

/-- Source function `ServiceRoot::itemChanged`, called with `getSubTree()`: emits `dataChanged`. -/
def ServiceRoot.itemChanged (self : ServiceRoot) (w : World) : World :=
  w.emit (.dataChanged self.accountId)

/-- Source function `ServiceRoot::requestReloadMessageList`: emits
`reloadMessageListRequested`. -/
def ServiceRoot.requestReloadMessageList (_self : ServiceRoot)
    (mark_selected_messages_read : Bool) (w : World) : World :=
  w.emit (.reloadMessageListRequested mark_selected_messages_read)

/-- Source function `ServiceRoot::requestItemRemoval`, called with `this`: emits `itemRemovalRequested`. -/
def ServiceRoot.requestItemRemoval (self : ServiceRoot) (w : World) : World :=
  w.emit (.itemRemovalRequested self.accountId)

/-- The call `updateCounts(including_total_count)`.  `RootItem::updateCounts` is
not among the sources; the call is recorded, its effect on the in-memory counts
is not interpreted. -/
def ServiceRoot.updateCounts (_self : ServiceRoot) (including_total_count : Bool)
    (w : World) : World :=
  w.emit (.updateCounts including_total_count)

/-! Account deletion: `ServiceRoot::deleteViaGui` -/

/-- The answers of the driver to the four `exec` calls of `deleteViaGui`, by call
site.  An answer is only consulted if its call is reached. -/
structure DeleteAnswers where
  messages : Bool
  feeds : Bool
  categories : Bool
  accounts : Bool
deriving DecidableEq, Repr

/-- Source function `ServiceRoot::deleteViaGui` (serviceroot.cpp, lines 35-61). -/
def ServiceRoot.deleteViaGui (self : ServiceRoot) (a : DeleteAnswers) (w : World) :
    Bool × World :=
  -- Remove all messages.
  let r1 := w.exec (.deleteMessages self.accountId) a.messages
  if !r1.1 then (false, r1.2) else
  -- Remove all feeds.
  let r2 := r1.2.exec (.deleteFeeds self.accountId) a.feeds
  if !r2.1 then (false, r2.2) else
  -- Remove all categories.
  let r3 := r2.2.exec (.deleteCategories self.accountId) a.categories
  if !r3.1 then (false, r3.2) else
  -- Switch "existence" flag.
  let r4 := r3.2.exec (.deleteAccounts self.accountId) a.accounts
  let data_removed := r4.1
  let w4 := if data_removed then self.requestItemRemoval r4.2 else r4.2
  (data_removed, w4)

/-! Bulk read-state change: `ServiceRoot::markAsReadUnread` -/

/-- The answers of the driver to the calls of `markAsReadUnread`, by call site.  An
answer is only consulted if its call is reached. -/
structure MarkAnswers where
  /-- Answer of `db_handle.transaction()` (line 66). -/
  transaction : Bool
  /-- Answer of `query_read_msg.exec()` (line 78). -/
  exec : Bool
  /-- Answer of `db_handle.rollback()` (line 80). -/
  rollbackAfterExec : Bool
  /-- Answer of `db_handle.commit()` (line 84). -/
  commit : Bool
  /-- Answer of `db_handle.rollback()` (line 91). -/
  rollbackAfterCommit : Bool
deriving DecidableEq, Repr

/-- Source function `ServiceRoot::markAsReadUnread` (serviceroot.cpp, lines 63-93). -/
def ServiceRoot.markAsReadUnread (self : ServiceRoot) (status : ReadStatus)
    (a : MarkAnswers) (w : World) : Bool × World :=
  let r0 := w.transaction a.transaction
  if !r0.1 then
    (false, r0.2.emit .qWarning)
  else
    let stmt := Statement.updateMessagesRead
      (if status = ReadStatus.Read then 1 else 0) self.accountId
    let r1 := r0.2.exec stmt a.exec
    let w1 := if !r1.1 then ((r1.2.emit .qDebug).rollback a.rollbackAfterExec).2 else r1.2
    -- Commit changes.
    let r2 := w1.commit a.commit
    if r2.1 then
      let w3 := self.updateCounts false r2.2
      let w4 := self.itemChanged w3
      let w5 := self.requestReloadMessageList (decide (status = ReadStatus.Read)) w4
      (true, w5)
    else
      r2.2.rollback a.rollbackAfterCommit

/-- The events a call appended to the log: what `after` holds beyond
`before`. -/
def World.since (before after : World) : List Event :=
  after.log.drop before.log.length

/-- The events of `markAsReadUnread` that the spec ties to a successful
commit: the count recomputation and the two notifications. -/
def Event.isPostCommit : Event → Bool
  | .updateCounts _ => true
  | .dataChanged _ => true
  | .reloadMessageListRequested _ => true
  | _ => false

/-- The driver calls that come after `transaction()` in `markAsReadUnread`. -/
def Event.isLaterDriverCall : Event → Bool
  | .exec _ _ => true
  | .commit _ => true
  | .rollback _ => true
  | _ => false

/-- Signals a `ServiceRoot` emits. -/
def Event.isNotification : Event → Bool
  | .dataChanged _ => true
  | .reloadMessageListRequested _ => true
  | .itemRemovalRequested _ => true
  | _ => false

/-- A small store used in the concrete evaluations: two accounts (1 and 2),
with messages in every combination of the deletion flags. -/
def sampleTables : Tables :=
  { Messages := [ ⟨1, 0, 0, 0, [10]⟩, ⟨1, 0, 1, 0, [11]⟩, ⟨1, 0, 0, 1, [12]⟩,
                  ⟨2, 0, 0, 0, [13]⟩, ⟨1, 1, 0, 0, [14]⟩ ],
    Feeds := [ ⟨1, [20]⟩, ⟨2, [21]⟩ ],
    Categories := [ ⟨1, [30]⟩, ⟨2, [31]⟩, ⟨1, [32]⟩ ],
    Accounts := [ ⟨1, [40]⟩, ⟨2, [41]⟩ ] }

/-- The sample store with no transaction open and an empty log. -/
def sampleWorld : World :=
  { tables := sampleTables, saved := none, log := [] }

/-! The feeds tree view: `gui/feedsview.cpp` -/

/-- Modelled from the spec: the kinds of tree items, `RootItemKind::Kind`,
declared in `rootitem.h` (not among the sources).  The spec gives the item as a
"tagged variant over Root, Category, Feed, ServiceRoot, Bin". -/
inductive RootItemKind where
  | Root
  | Bin
  | Feed
  | Category
  | ServiceRoot
deriving DecidableEq, Repr

/-- An item of the tree as the code reaches it through a `RootItem*`.  Field
`addr` is the identity of the in-memory object (the pointer value); the other
fields are the members and virtual answers the code under study reads:
`kind()`, `id()`, `hashCode()`, `canBeEdited()`, `canBeDeleted()` and
`childItems()`. -/
structure RootItem where
  addr : Nat
  kind : RootItemKind
  id : Int
  hashCode : String
  canBeEdited : Bool
  canBeDeleted : Bool
  childItems : List RootItem
deriving Repr

/-- Source call `item->childCount()`: the number of child items. -/
def RootItem.childCount (item : RootItem) : Nat :=
  item.childItems.length

mutual
/-- Modelled from the spec: `RootItem::getSubTree(kinds)`, defined in
`rootitem.cpp` (not among the sources).  It "walks the full subtree once" and
yields the items of the requested kinds, the item itself included; the order
of the walk is not fixed by the spec, it is pre-order here. -/
def RootItem.getSubTree (kinds : RootItemKind → Bool) : RootItem → List RootItem
  | ⟨a, k, i, h, e, d, cs⟩ =>
      (if kinds k then [⟨a, k, i, h, e, d, cs⟩] else []) ++ RootItem.getSubTreeOfList kinds cs
/-- The walk of `getSubTree` over a list of child items. -/
def RootItem.getSubTreeOfList (kinds : RootItemKind → Bool) : List RootItem → List RootItem
  | [] => []
  | c :: cs => RootItem.getSubTree kinds c ++ RootItem.getSubTreeOfList kinds cs
end

/-- The mask `RootItemKind::Category | RootItemKind::ServiceRoot`. -/
def RootItemKind.isCategoryOrServiceRoot : RootItemKind → Bool
  | .Category => true
  | .ServiceRoot => true
  | _ => false

/-- Modelled from the spec: the settings store (`miscellaneous/settings.h`, not
among the sources), "key/value persistence, grouped by named sections": the
group `CategoriesExpandStates` holds per-item hash code to bool, the group `GUI`
holds the sort column and the sort order of the feeds view. -/
structure Settings where
  CategoriesExpandStates : List (String × Bool)
  DefaultSortColumnFeeds : Int
  DefaultSortOrderFeeds : Int
deriving DecidableEq, Repr

/-- The value saved under `key` in a group, if there is one. -/
def Settings.lookup (key : String) : List (String × Bool) → Option Bool
  | [] => none
  | (k, b) :: rest => if k = key then some b else Settings.lookup key rest

/-- Modelled from the spec: the read
`settings->value(GROUP(CategoriesExpandStates), key, default_value).toBool()`:
the saved value when one exists, the default otherwise. -/
def Settings.value (s : Settings) (key : String) (default_value : Bool) : Bool :=
  match Settings.lookup key s.CategoriesExpandStates with
  | some b => b
  | none => default_value

/-- Modelled from the spec: the write
`settings->setValue(GROUP(CategoriesExpandStates), key, value)`: the value
saved under `key` is replaced, or added when there was none. -/
def Settings.setValue (s : Settings) (key : String) (value : Bool) : Settings :=
  { s with CategoriesExpandStates :=
      (key, value) :: s.CategoriesExpandStates.filter (fun e => decide (e.1 ≠ key)) }

/-- Values of `QMessageBox::StandardButton` that a message box can answer
with. -/
inductive StandardButton where
  | NoButton
  | Ok
  | Cancel
  | Yes
  | No
deriving DecidableEq, Repr

/-- The messages `feedsview.cpp` shows through `qApp->showGuiMessage`. -/
inductive GuiMessage where
  /-- Warning "Cannot edit item ... another critical operation is ongoing". -/
  | cannotEditLocked
  /-- Warning "Cannot edit item ... this is not (yet?) supported". -/
  | cannotEditUnsupported
  /-- Warning "Cannot delete item ... another critical operation is ongoing". -/
  | cannotDeleteLocked
  /-- Critical "This item cannot be deleted because something critically failed". -/
  | cannotDeleteFailed
  /-- Critical "This item cannot be deleted, because it does not support it". -/
  | cannotDeleteUnsupported
deriving DecidableEq, Repr

/-- Everything observable an operation of the view does, in order. -/
inductive ViewEvent where
  /-- Call of `qApp->feedUpdateLock()->tryLock()`, which answered `ok`. -/
  | tryLock (ok : Bool)
  /-- Call of `qApp->feedUpdateLock()->unlock()`. -/
  | unlock
  /-- Call of `qApp->showGuiMessage(...)`. -/
  | showGuiMessage (message : GuiMessage)
  /-- The question "You are about to completely delete item ... Are you sure?"
  was shown by `MessageBox::show` with the buttons Yes and No, and answered. -/
  | confirmDelete (answer : StandardButton)
  /-- Call of `deleteViaGui()` on the item at `item`, which answered `ok`. -/
  | deleteViaGui (item : Nat) (ok : Bool)
  /-- Call of `editViaGui()` on the item at `item`. -/
  | editViaGui (item : Nat)
  /-- Call of `setExpanded(index, expanded)`. -/
  | setExpanded (index : Nat) (expanded : Bool)
  /-- Call of `m_proxyModel->sort(column, order)`. -/
  | proxySort (column : Int) (order : Int)
  /-- Call of `QTreeView::sortByColumn(column, order)`. -/
  | treeViewSortByColumn (column : Int) (order : Int)
deriving DecidableEq, Repr

/-- The state a `FeedsView` operation reads and writes.  A valid model index is
represented by the object identity of the item it designates (the source model
keeps the item pointer in the index), so `selectedRows` lists, for each selected
row, the item `itemForIndex(mapToSource(row))`, and the expanded indexes are
item identities. -/
structure FeedsView where
  /-- Whether the feed-update lock `qApp->feedUpdateLock()` is taken. -/
  feedUpdateLocked : Bool
  /-- The answer of `currentIndex().isValid()`. -/
  currentIndexValid : Bool
  /-- The items of `selectionModel()->selectedRows()`. -/
  selectedRows : List RootItem
  /-- The item `m_sourceModel->rootItem()`. -/
  rootItem : RootItem
  /-- The indexes the view shows expanded. -/
  expandedIndexes : List Nat
  /-- The answer of `header()->sortIndicatorSection()`. -/
  sortIndicatorSection : Int
  /-- The answer of `header()->sortIndicatorOrder()`. -/
  sortIndicatorOrder : Int
  /-- The store `qApp->settings()`. -/
  settings : Settings
  /-- The relational store the items are kept in. -/
  world : World
  /-- The events so far. -/
  log : List ViewEvent

/-- What the surroundings answer to an edit or delete request: the button the
user answers the confirmation question with, and the virtual `deleteViaGui` and
`editViaGui` of the selected item, as functions of the store. -/
structure GuiAnswers where
  confirm : StandardButton
  deleteViaGui : RootItem → World → Bool × World
  editViaGui : RootItem → World → World

/-- Append one event to the log of the view. -/
def FeedsView.emit (v : FeedsView) (e : ViewEvent) : FeedsView :=
  { v with log := v.log ++ [e] }

/-- The events a call appended to the log of the view. -/
def FeedsView.since (before after : FeedsView) : List ViewEvent :=
  after.log.drop before.log.length

/-- Modelled from the spec: the non-blocking attempt
`qApp->feedUpdateLock()->tryLock()` on the "single mutual-exclusion lock"
(`miscellaneous/mutex.h`, not among the sources): it fails when the lock is
taken, and takes it otherwise. -/
def FeedsView.tryLock (v : FeedsView) : Bool × FeedsView :=
  if v.feedUpdateLocked then (false, v.emit (.tryLock false))
  else (true, { v.emit (.tryLock true) with feedUpdateLocked := true })

/-- Modelled from the spec: `qApp->feedUpdateLock()->unlock()` releases the
lock. -/
def FeedsView.unlock (v : FeedsView) : FeedsView :=
  { v.emit .unlock with feedUpdateLocked := false }

/-- The call `qApp->showGuiMessage(...)`. -/
def FeedsView.showGuiMessage (v : FeedsView) (m : GuiMessage) : FeedsView :=
  v.emit (.showGuiMessage m)

/-- Source function `FeedsView::selectedItem` (feedsview.cpp, lines 89-99);
`none` is `nullptr`, and the comparison with the root item is one of
pointers. -/
def FeedsView.selectedItem (v : FeedsView) : Option RootItem :=
  match v.selectedRows with
  | [] => none
  | selected_item :: _ =>
      if selected_item.addr = v.rootItem.addr then none else some selected_item

/-- How a slot of the view ends: it returns, or it calls a method through a
null item pointer. -/
inductive Outcome where
  | returned (v : FeedsView)
  | nullDereference (v : FeedsView)

/-- Source function `FeedsView::editSelectedItem` (feedsview.cpp, lines
217-242). -/
def FeedsView.editSelectedItem (v : FeedsView) (g : GuiAnswers) : Outcome :=
  let r := v.tryLock
  if !r.1 then
    -- Lock was not obtained; cannot edit and quit the method.
    .returned (r.2.showGuiMessage .cannotEditLocked)
  else
    match r.2.selectedItem with
    | none => .nullDereference r.2
    | some item =>
        let v1 :=
          if item.canBeEdited then
            { r.2 with world := g.editViaGui item r.2.world }.emit (.editViaGui item.addr)
          else
            r.2.showGuiMessage .cannotEditUnsupported
        -- Changes are done, unlock the update master lock.
        .returned v1.unlock

/-- Source function `FeedsView::deleteSelectedItem` (feedsview.cpp, lines
244-299). -/
def FeedsView.deleteSelectedItem (v : FeedsView) (g : GuiAnswers) : FeedsView :=
  let r := v.tryLock
  if !r.1 then
    -- Lock was not obtained; cannot delete and quit the method.
    r.2.showGuiMessage .cannotDeleteLocked
  else if !r.2.currentIndexValid then
    -- Changes are done, unlock the update master lock and exit.
    r.2.unlock
  else
    match r.2.selectedItem with
    | some selected_item =>
        if selected_item.canBeDeleted then
          -- Ask user first.
          let v1 := r.2.emit (.confirmDelete g.confirm)
          if g.confirm = StandardButton.No then
            -- User refused.
            v1.unlock
          else
            -- We have deleteable item selected, remove it via GUI.
            let d := g.deleteViaGui selected_item v1.world
            let v2 := { v1 with world := d.2 }.emit (.deleteViaGui selected_item.addr d.1)
            let v3 := if !d.1 then v2.showGuiMessage .cannotDeleteFailed else v2
            v3.unlock
        else
          (r.2.showGuiMessage .cannotDeleteUnsupported).unlock
    | none => r.2.unlock

/-- The view call `isExpanded(index)`. -/
def FeedsView.isExpanded (v : FeedsView) (index : Nat) : Bool :=
  decide (index ∈ v.expandedIndexes)

/-- The view call `setExpanded(index, expanded)`. -/
def FeedsView.setExpanded (v : FeedsView) (index : Nat) (expanded : Bool) : FeedsView :=
  { v.emit (.setExpanded index expanded) with
    expandedIndexes :=
      if expanded then
        (if index ∈ v.expandedIndexes then v.expandedIndexes else index :: v.expandedIndexes)
      else
        v.expandedIndexes.filter (fun i => decide (i ≠ index)) }

/-- Source function `FeedsView::saveSortState` (feedsview.cpp, lines 526-529). -/
def FeedsView.saveSortState (v : FeedsView) (column : Int) (order : Int) : FeedsView :=
  { v with settings :=
      { v.settings with DefaultSortColumnFeeds := column, DefaultSortOrderFeeds := order } }

/-- Source function `FeedsView::sortByColumn` (feedsview.cpp, lines 144-154).
The call `QTreeView::sortByColumn` moves the sort indicator of the header, whose
signal `sortIndicatorChanged` is connected to `saveSortState` (line 61). -/
def FeedsView.sortByColumn (v : FeedsView) (column : Int) (order : Int) : FeedsView :=
  let old_column := v.sortIndicatorSection
  let old_order := v.sortIndicatorOrder
  if column = old_column ∧ order = old_order then
    v.emit (.proxySort column order)
  else
    ({ v.emit (.treeViewSortByColumn column order) with
        sortIndicatorSection := column, sortIndicatorOrder := order }).saveSortState column order

/-- Source function `FeedsView::saveExpandStates` (feedsview.cpp, lines
109-124). -/
def FeedsView.saveExpandStates (v : FeedsView) (item : RootItem) : FeedsView :=
  let items := item.getSubTree RootItemKind.isCategoryOrServiceRoot
  -- Iterate all categories and save their expand statuses.
  items.foldl
    (fun v item =>
      let setting_name := item.hashCode
      { v with settings := v.settings.setValue setting_name (v.isExpanded item.addr) })
    v

/-- Source function `FeedsView::saveAllExpandStates` (feedsview.cpp, lines
105-107). -/
def FeedsView.saveAllExpandStates (v : FeedsView) : FeedsView :=
  v.saveExpandStates v.rootItem

/-- The loop of `FeedsView::loadAllExpandStates` (feedsview.cpp, lines
133-138) over the expandable items. -/
def FeedsView.loadExpandStatesOf (v : FeedsView) (expandable_items : List RootItem) :
    FeedsView :=
  expandable_items.foldl
    (fun v item =>
      let setting_name := item.hashCode
      v.setExpanded item.addr (v.settings.value setting_name (decide (item.childCount > 0))))
    v

/-- Source function `FeedsView::loadAllExpandStates` (feedsview.cpp, lines
126-142). -/
def FeedsView.loadAllExpandStates (v : FeedsView) : FeedsView :=
  let expandable_items := v.rootItem.getSubTree RootItemKind.isCategoryOrServiceRoot
  let v1 := v.loadExpandStatesOf expandable_items
  v1.sortByColumn v1.settings.DefaultSortColumnFeeds v1.settings.DefaultSortOrderFeeds

/-- Whether an event of the view is a `setExpanded` call. -/
def ViewEvent.isSetExpanded : ViewEvent → Bool
  | .setExpanded _ _ => true
  | _ => false

/-- Whether an event of the view is one of the two sort calls that
`FeedsView::sortByColumn` makes. -/
def ViewEvent.isSort : ViewEvent → Bool
  | .proxySort _ _ => true
  | .treeViewSortByColumn _ _ => true
  | _ => false

/-- Whether an event is the confirmation question or a call of `deleteViaGui`
or `editViaGui`. -/
def ViewEvent.isConfirmOrItemCall : ViewEvent → Bool
  | .confirmDelete _ => true
  | .deleteViaGui _ _ => true
  | .editViaGui _ => true
  | _ => false

/-- The events of one `deleteSelectedItem` call, path by path. -/
def FeedsView.deleteSelectedItemEvents (v : FeedsView) (g : GuiAnswers) : List ViewEvent :=
  if v.feedUpdateLocked then
    [.tryLock false, .showGuiMessage .cannotDeleteLocked]
  else if !v.currentIndexValid then
    [.tryLock true, .unlock]
  else
    match v.selectedItem with
    | none => [.tryLock true, .unlock]
    | some item =>
        if item.canBeDeleted then
          if g.confirm = StandardButton.No then
            [.tryLock true, .confirmDelete g.confirm, .unlock]
          else
            [.tryLock true, .confirmDelete g.confirm,
              .deleteViaGui item.addr (g.deleteViaGui item v.world).1]
            ++ (if (g.deleteViaGui item v.world).1 then [] else
                  [.showGuiMessage .cannotDeleteFailed])
            ++ [.unlock]
        else
          [.tryLock true, .showGuiMessage .cannotDeleteUnsupported, .unlock]

/-- A small tree used in the concrete evaluations: the root holds one account
(a service root) with a category that has a feed, and an empty category that
can be neither edited nor deleted. -/
def sampleTree : RootItem :=
  ⟨0, .Root, 0, "root", false, false,
    [⟨1, .ServiceRoot, 1, "account", true, true,
      [⟨2, .Category, 5, "news", true, true,
         [⟨3, .Feed, 9, "feed", true, true, []⟩]⟩,
       ⟨4, .Category, 6, "empty", false, false, []⟩]⟩]⟩

/-- The account item of the sample tree. -/
def sampleAccount : RootItem :=
  ⟨1, .ServiceRoot, 1, "account", true, true,
    [⟨2, .Category, 5, "news", true, true,
       [⟨3, .Feed, 9, "feed", true, true, []⟩]⟩,
     ⟨4, .Category, 6, "empty", false, false, []⟩]⟩

/-- The empty category of the sample tree, which supports neither editing nor
deleting. -/
def sampleEmptyCategory : RootItem :=
  ⟨4, .Category, 6, "empty", false, false, []⟩

/-- A view on the sample tree and the sample store: the given lock state and
selected rows, a valid current index, only the account expanded, nothing saved
for the expand states. -/
def sampleView (locked : Bool) (rows : List RootItem) : FeedsView :=
  { feedUpdateLocked := locked, currentIndexValid := true, selectedRows := rows,
    rootItem := sampleTree, expandedIndexes := [1], sortIndicatorSection := 0,
    sortIndicatorOrder := 0,
    settings := { CategoriesExpandStates := [], DefaultSortColumnFeeds := 0,
                  DefaultSortOrderFeeds := 1 },
    world := sampleWorld, log := [] }

/-- Surroundings for the concrete evaluations: the user answers with the given
button, `deleteViaGui` of an item is the account deletion of `ServiceRoot` with
every statement succeeding, `editViaGui` leaves the store alone. -/
def sampleGui (answer : StandardButton) : GuiAnswers :=
  { confirm := answer,
    deleteViaGui := fun item w => ServiceRoot.deleteViaGui ⟨item.id⟩ ⟨true, true, true, true⟩ w,
    editViaGui := fun _ w => w }

/-- A rebuilt copy of the sample tree: the same hash codes, other objects. -/
def sampleTreeRebuilt : RootItem :=
  ⟨100, .Root, 0, "root", false, false,
    [⟨101, .ServiceRoot, 1, "account", true, true,
      [⟨102, .Category, 5, "news", true, true,
         [⟨103, .Feed, 9, "feed", true, true, []⟩]⟩,
       ⟨104, .Category, 6, "empty", false, false, []⟩]⟩]⟩

/-- The view after a restart: on the rebuilt tree, nothing expanded yet, with
the settings the sample view saved. -/
def sampleViewReloaded : FeedsView :=
  { sampleView false [] with
    rootItem := sampleTreeRebuilt, expandedIndexes := [],
    settings := (sampleView false []).saveAllExpandStates.settings }

/-! Reading messages: `ServiceRoot::undeletedMessages` -/

/-- The rows the query of `undeletedMessages` returns:
`SELECT * FROM Messages WHERE is_deleted = 0 AND is_pdeleted = 0 AND account_id = :account_id;` -/
def Tables.selectUndeleted (t : Tables) (account_id : Int) : List MessageRow :=
  t.Messages.filter
    (fun r => decide (r.is_deleted = 0 ∧ r.is_pdeleted = 0 ∧ r.account_id = account_id))

/-- The `while (query_read_msg.next())` loop of `undeletedMessages`
(serviceroot.cpp, lines 110-119) over the remaining rows.  The decoder
`Message::fromSqlRecord` is not among the sources; it is a parameter that
yields the message and the `decoded` flag. -/
def ServiceRoot.undeletedMessagesLoop {M : Type} (fromSqlRecord : MessageRow → M × Bool) :
    List M → List MessageRow → List M
  | messages, [] => messages
  | messages, record :: rest =>
      let message := (fromSqlRecord record).1
      let decoded := (fromSqlRecord record).2
      let messages1 := if decoded then messages ++ [message] else messages
      ServiceRoot.undeletedMessagesLoop fromSqlRecord (messages1 ++ [message]) rest

/-- Source function `ServiceRoot::undeletedMessages` (serviceroot.cpp, lines
95-123); `exec` is the answer of `query_read_msg.exec()`. -/
def ServiceRoot.undeletedMessages {M : Type} (self : ServiceRoot)
    (fromSqlRecord : MessageRow → M × Bool) (exec : Bool) (t : Tables) : List M :=
  if exec then
    ServiceRoot.undeletedMessagesLoop fromSqlRecord [] (t.selectUndeleted self.accountId)
  else
    []

/-- A decoder for the concrete evaluations: the message is the list of the
remaining columns, and a row decodes when it has exactly one of them. -/
def sampleDecoder (r : MessageRow) : List Int × Bool :=
  (r.rest, decide (r.rest.length = 1))

/-- A store with two undeleted messages of account 1, the second of which does
not decode with `sampleDecoder`. -/
def sampleTablesShortRow : Tables :=
  { Messages := [ ⟨1, 0, 0, 0, [10]⟩, ⟨1, 0, 0, 0, []⟩ ],
    Feeds := [], Categories := [], Accounts := [ ⟨1, [40]⟩ ] }

/-! Building the tree: `ServiceRoot::assembleFeeds` and
`ServiceRoot::assembleCategories` -/

/-- What the assembling functions do to the tree, in order. -/
inductive TreeEvent where
  /-- Call of `parent->appendChild(child)`, by the addresses of the two items. -/
  | appendChild (parent : Nat) (child : Nat)
  /-- Call of `item->updateCounts(including_total_count)`. -/
  | updateCounts (item : Nat) (including_total_count : Bool)
  /-- A `qWarning(...)` line was written. -/
  | qWarning
deriving DecidableEq, Repr

/-- The parent and child of an `appendChild` call. -/
def TreeEvent.appended : TreeEvent → Option (Nat × Nat)
  | .appendChild parent child => some (parent, child)
  | _ => none

/-- A `QHash<int, RootItem*>` as the list of its insertions, newest first. -/
abbrev QHash := List (Int × RootItem)

/-- The call `hash.value(key)` when `hash.contains(key)`, and `none` when the
key is not contained. -/
def QHash.value (key : Int) : QHash → Option RootItem
  | [] => none
  | (k, item) :: rest => if k = key then some item else QHash.value key rest

/-- The call `hash.insert(key, item)`: the newest insertion is the one
`value` finds, so an older value under the same key is replaced. -/
def QHash.insert (key : Int) (item : RootItem) (hash : QHash) : QHash :=
  (key, item) :: hash

/-- Source function `ServiceRoot::assembleFeeds` (serviceroot.cpp, lines
157-175), as the events it causes.  `self` is the service root item,
`NO_PARENT_CATEGORY` the constant of that name (defined outside the sources)
and `categories` the hash `getHashedSubTreeCategories()` returns. -/
def ServiceRoot.assembleFeeds (self : RootItem) (NO_PARENT_CATEGORY : Int)
    (categories : QHash) (feeds : List (Int × RootItem)) : List TreeEvent :=
  feeds.foldl
    (fun log feed =>
      if feed.1 = NO_PARENT_CATEGORY then
        -- This is top-level feed, add it to the root item.
        log ++ [.appendChild self.addr feed.2.addr, .updateCounts feed.2.addr true]
      else
        match QHash.value feed.1 categories with
        | some category =>
            -- This feed belongs to this category.
            log ++ [.appendChild category.addr feed.2.addr, .updateCounts feed.2.addr true]
        | none =>
            -- Feed is loose, skipping it.
            log ++ [.qWarning])
    []

/-- The parent the spec names for a feed of the input list: the service root
for a feed without parent category, the category with the id of the feed's
category when the subtree has one, and none for a loose feed. -/
def ServiceRoot.feedTarget (self : RootItem) (NO_PARENT_CATEGORY : Int)
    (categories : QHash) (feed : Int × RootItem) : Option (Nat × Nat) :=
  if feed.1 = NO_PARENT_CATEGORY then some (self.addr, feed.2.addr)
  else (QHash.value feed.1 categories).map (fun category => (category.addr, feed.2.addr))

/-- The variables of `ServiceRoot::assembleCategories`: the pending list
`categories`, the hash `assignments`, and the events so far. -/
structure AssembleState where
  categories : List (Int × RootItem)
  assignments : QHash
  log : List TreeEvent

/-- The `for` loop of `assembleCategories` (serviceroot.cpp, lines 183-196).
The pending list is `kept` followed by the argument list: `kept` holds the
entries before index `i`, the argument list the entries from index `i` on.  An
entry whose parent id is a key of `assignments` is appended to that parent,
inserted under its own id and removed (index `i` stays); any other entry is
kept (index `i` moves on). -/
def ServiceRoot.assembleCategoriesFor (assignments : QHash) (log : List TreeEvent)
    (kept : List (Int × RootItem)) : List (Int × RootItem) → AssembleState
  | [] => { categories := kept, assignments := assignments, log := log }
  | c :: rest =>
      match QHash.value c.1 assignments with
      | some parent =>
          ServiceRoot.assembleCategoriesFor (QHash.insert c.2.id c.2 assignments)
            (log ++ [.appendChild parent.addr c.2.addr]) kept rest
      | none =>
          ServiceRoot.assembleCategoriesFor assignments log (kept ++ [c]) rest

/-- The `while (!categories.isEmpty())` loop of `assembleCategories`
(serviceroot.cpp, lines 182-197), run for at most `fuel` passes: `none` when the
pending list is still not empty after that many passes. -/
def ServiceRoot.assembleCategoriesWhile : Nat → AssembleState → Option AssembleState
  | 0, s => if s.categories.isEmpty then some s else none
  | fuel + 1, s =>
      if s.categories.isEmpty then some s
      else
        ServiceRoot.assembleCategoriesWhile fuel
          (ServiceRoot.assembleCategoriesFor s.assignments s.log [] s.categories)

/-- Source function `ServiceRoot::assembleCategories` (serviceroot.cpp, lines
177-198), run for at most `fuel` passes of the outer loop. -/
def ServiceRoot.assembleCategories (self : RootItem) (NO_PARENT_CATEGORY : Int)
    (categories : List (Int × RootItem)) (fuel : Nat) : Option AssembleState :=
  ServiceRoot.assembleCategoriesWhile fuel
    { categories := categories,
      assignments := QHash.insert NO_PARENT_CATEGORY self [],
      log := [] }

/-- The chain of parent ids from `id` reaches `NO_PARENT_CATEGORY` through
categories of the list: `id` is `NO_PARENT_CATEGORY`, or it is the id of a
category of the list whose parent id reaches it. -/
inductive ServiceRoot.ReachesRoot (NO_PARENT_CATEGORY : Int)
    (categories : List (Int × RootItem)) : Int → Prop where
  | root : ServiceRoot.ReachesRoot NO_PARENT_CATEGORY categories NO_PARENT_CATEGORY
  | step (c : Int × RootItem) (hc : c ∈ categories)
      (hparent : ServiceRoot.ReachesRoot NO_PARENT_CATEGORY categories c.1) :
      ServiceRoot.ReachesRoot NO_PARENT_CATEGORY categories c.2.id

/-- The `appendChild` call the spec names for a category of the input list:
onto the service root when its parent id is `NO_PARENT_CATEGORY`, and otherwise
onto the category of the list whose id equals its parent id. -/
def ServiceRoot.categoryTarget (self : RootItem) (NO_PARENT_CATEGORY : Int)
    (categories : List (Int × RootItem)) (c : Int × RootItem) : Option (Nat × Nat) :=
  if c.1 = NO_PARENT_CATEGORY then some (self.addr, c.2.addr)
  else (categories.find? (fun d => decide (d.2.id = c.1))).map (fun d => (d.2.addr, c.2.addr))

/-- A leaf item for the concrete evaluations of the assembling functions. -/
def sampleLeaf (addr : Nat) (kind : RootItemKind) (id : Int) : RootItem :=
  ⟨addr, kind, id, "", true, true, []⟩

/-- The invariant of the loops of `assembleCategories` on an input list
`all`: the entries `done` were appended and removed, in this order, and the
entries `pending` are still in the pending list.  Every key of `assignments` is
`NO_PARENT_CATEGORY`, holding the service root, or the id of a done entry,
holding that entry; both kinds of key are present; and the `appendChild` calls
so far are the ones the spec names for the done entries. -/
structure ServiceRoot.AssembleInvariant (service_root : RootItem) (NO_PARENT_CATEGORY : Int)
    (all done pending : List (Int × RootItem)) (assignments : QHash)
    (log : List TreeEvent) : Prop where
  perm : (done ++ pending).Perm all
  sound : ∀ (key : Int) (item : RootItem), QHash.value key assignments = some item →
    (key = NO_PARENT_CATEGORY ∧ item.addr = service_root.addr)
    ∨ ∃ d ∈ done, d.2.id = key ∧ item.addr = d.2.addr
  root : QHash.value NO_PARENT_CATEGORY assignments ≠ none
  complete : ∀ d ∈ done, QHash.value d.2.id assignments ≠ none
  appended : done.map (ServiceRoot.categoryTarget service_root NO_PARENT_CATEGORY all)
    = (log.filterMap TreeEvent.appended).map some

/-- Two categories for the concrete evaluations, listed child first: the
category with id 7 (address 12) has parent id 5, the category with id 5
(address 11) is top-level.  The constant `NO_PARENT_CATEGORY` is taken as -1. -/
def sampleCategories : List (Int × RootItem) :=
  [(5, sampleLeaf 12 .Category 7), (-1, sampleLeaf 11 .Category 5)]

/-- One pass of the body of the `while` loop of `assembleCategories`: the
`for` loop from index 0 over the whole pending list. -/
def ServiceRoot.assembleCategoriesPass (s : AssembleState) : AssembleState :=
  ServiceRoot.assembleCategoriesFor s.assignments s.log [] s.categories

/-- The variables of `assembleCategories` when the `while` loop is entered. -/
def ServiceRoot.assembleCategoriesStart (self : RootItem) (NO_PARENT_CATEGORY : Int)
    (categories : List (Int × RootItem)) : AssembleState :=
  { categories := categories,
    assignments := QHash.insert NO_PARENT_CATEGORY self [],
    log := [] }

/-- The view a slot ended with, or was in when it went through the null
pointer. -/
def Outcome.view : Outcome → FeedsView
  | .returned v => v
  | .nullDereference v => v

/-- Whether a slot ended by calling a method through a null item pointer. -/
def Outcome.isNullDereference : Outcome → Bool
  | .returned _ => false
  | .nullDereference _ => true

/-- Three categories for the concrete evaluations: a top-level one (id 5), a
child of it (id 7), and an orphan whose parent id 99 is the id of no category
of the list.  The constant `NO_PARENT_CATEGORY` is taken as -1. -/
def sampleCategoriesWithOrphan : List (Int × RootItem) :=
  [(-1, sampleLeaf 11 .Category 5), (99, sampleLeaf 13 .Category 8),
   (5, sampleLeaf 12 .Category 7)]

/-! Shortcut bindings: `dynamic-shortcuts/dynamicshortcutswidget.cpp` -/

/-- A `QKeySequence`, as the list of its key codes; it is empty when it holds
no key. -/
structure QKeySequence where
  keys : List Nat
deriving DecidableEq, Repr

/-- The call `shortcut.isEmpty()`. -/
def QKeySequence.isEmpty (shortcut : QKeySequence) : Bool :=
  shortcut.keys.isEmpty

/-- An `ActionBinding`, a pair of an action and a shortcut catcher: the
identity of the action and what `binding.second->shortcut()` answers. -/
structure ActionBinding where
  action : Nat
  shortcut : QKeySequence
deriving DecidableEq, Repr

/-- The `foreach` loop of `areShortcutsUnique` (dynamicshortcutswidget.cpp,
lines 45-55) over the remaining bindings, with the shortcuts collected so
far. -/
def DynamicShortcutsWidget.areShortcutsUniqueLoop (all_shortcuts : List QKeySequence) :
    List ActionBinding → Bool
  | [] => true
  | binding :: rest =>
      let new_shortcut := binding.shortcut
      if !new_shortcut.isEmpty && decide (new_shortcut ∈ all_shortcuts) then
        -- Problem, two identical non-empty shortcuts found.
        false
      else
        DynamicShortcutsWidget.areShortcutsUniqueLoop (all_shortcuts ++ [binding.shortcut]) rest

/-- Source function `DynamicShortcutsWidget::areShortcutsUnique`
(dynamicshortcutswidget.cpp, lines 41-58) on the bindings `m_actionBindings`. -/
def DynamicShortcutsWidget.areShortcutsUnique (m_actionBindings : List ActionBinding) : Bool :=
  DynamicShortcutsWidget.areShortcutsUniqueLoop [] m_actionBindings

/-! Skins: `miscellaneous/skinfactory.cpp` -/

/-- Modelled from the spec: the struct `Skin`, declared in `skinfactory.h` (not
among the sources), "a bundle of CSS/HTML templates ... loaded from a named
folder with a metadata descriptor".  The members are the ones
`skinfactory.cpp` assigns; a default-constructed skin has them all empty. -/
structure Skin where
  m_baseName : String
  m_visibleName : String
  m_author : String
  m_email : String
  m_version : String
  m_rawData : String
  m_layoutMarkupWrapper : String
  m_layoutMarkup : String
  m_enclosureMarkup : String
  m_enclosureImageMarkup : String
deriving DecidableEq, Repr

/-- The default-constructed `Skin skin;`. -/
def Skin.empty : Skin :=
  { m_baseName := "", m_visibleName := "", m_author := "", m_email := "", m_version := "",
    m_rawData := "", m_layoutMarkupWrapper := "", m_layoutMarkup := "",
    m_enclosureMarkup := "", m_enclosureImageMarkup := "" }

/-- The condition `skinInfo` stores in `*ok` after reading a skin
(skinfactory.cpp, lines 155-157): author, version, base name, e-mail and layout
markup are all non-empty. -/
def Skin.loadedSuccessfully (skin : Skin) : Bool :=
  !skin.m_author.isEmpty && !skin.m_version.isEmpty &&
  !skin.m_baseName.isEmpty && !skin.m_email.isEmpty &&
  !skin.m_layoutMarkup.isEmpty

/-- What the DOM queries of `skinInfo` read from a metadata file that opened
and parsed: the author name, the author e-mail and the version attribute. -/
structure SkinMetadata where
  author : String
  email : String
  version : String
deriving DecidableEq, Repr

/-- The surroundings of `SkinFactory`: the constants `APP_SKIN_PATH` and
`APP_SKIN_METADATA_FILE` (defined outside the sources), the user skin folder,
the path separator, and the file system as the answers of `QFile::exists`, of
opening and parsing a metadata file (`none` when `open` or `setContent` fails),
of `IOFactory::readTextFile`, and of `QDir(path).entryList(...)`. -/
structure SkinEnvironment where
  APP_SKIN_PATH : String
  APP_SKIN_METADATA_FILE : String
  userSkinBaseFolder : String
  separator : String
  fileExists : String → Bool
  readMetadata : String → Option SkinMetadata
  readTextFile : String → String
  entryList : String → List String

/-- The call `text.replace("##", after)` on the characters of a string: every
occurrence of two hash signs, found from left to right, is replaced. -/
def SkinFactory.replacePlaceholder (after : List Char) : List Char → List Char
  | [] => []
  | [c] => [c]
  | c :: d :: rest =>
      if c = Char.ofNat 35 ∧ d = Char.ofNat 35 then
        after ++ SkinFactory.replacePlaceholder after rest
      else
        c :: SkinFactory.replacePlaceholder after (d :: rest)

/-- Reading one markup file of a skin: `IOFactory::readTextFile` on the file
in the skin folder, then the placeholder "##" replaced by
`APP_SKIN_PATH + "/" + skin_name`. -/
def SkinFactory.readMarkup (env : SkinEnvironment) (skin_folder skin_name file : String) :
    String :=
  String.mk (SkinFactory.replacePlaceholder
    (env.APP_SKIN_PATH ++ "/" ++ skin_name).data (env.readTextFile (skin_folder ++ file)).data)

/-- The `while` loop of `SkinFactory::skinInfo` (skinfactory.cpp, lines
92-162) over the remaining base folders.  The result is the skin returned and
what was stored through the pointer `ok`: `none` when nothing was stored, so
that the flag of the caller keeps its previous value. -/
def SkinFactory.skinInfoIn (env : SkinEnvironment) (skin_name : String) :
    List String → Skin × Option Bool
  | [] => (Skin.empty, none)
  | base :: rest =>
      let skin_folder := base ++ env.separator ++ skin_name ++ env.separator
      let metadata_file := skin_folder ++ env.APP_SKIN_METADATA_FILE
      if env.fileExists metadata_file then
        match env.readMetadata metadata_file with
        | none => (Skin.empty, some false)
        | some metadata =>
            let skin : Skin :=
              { m_visibleName := skin_name,
                m_author := metadata.author,
                m_email := metadata.email,
                m_version := metadata.version,
                m_baseName := skin_name,
                m_layoutMarkupWrapper :=
                  SkinFactory.readMarkup env skin_folder skin_name "html_wrapper.html",
                m_enclosureImageMarkup :=
                  SkinFactory.readMarkup env skin_folder skin_name "html_enclosure_image.html",
                m_layoutMarkup :=
                  SkinFactory.readMarkup env skin_folder skin_name "html_single_message.html",
                m_enclosureMarkup :=
                  SkinFactory.readMarkup env skin_folder skin_name "html_enclosure_every.html",
                m_rawData := SkinFactory.readMarkup env skin_folder skin_name "theme.css" }
            (skin, some skin.loadedSuccessfully)
      else
        SkinFactory.skinInfoIn env skin_name rest

/-- Source function `SkinFactory::skinInfo` (skinfactory.cpp, lines 85-165),
called with a non-null `ok`. -/
def SkinFactory.skinInfo (env : SkinEnvironment) (skin_name : String) : Skin × Option Bool :=
  SkinFactory.skinInfoIn env skin_name [env.APP_SKIN_PATH, env.userSkinBaseFolder]

/-- The `foreach` loop of `SkinFactory::installedSkins` (skinfactory.cpp,
lines 179-185) over the remaining directories, with the list `skins` and the
flag `skin_load_ok` as they stand. -/
def SkinFactory.installedSkinsLoop (env : SkinEnvironment) :
    List Skin → Bool → List String → List Skin
  | skins, _, [] => skins
  | skins, skin_load_ok, base_directory :: rest =>
      let r := SkinFactory.skinInfo env base_directory
      let skin_info := r.1
      let skin_load_ok1 := r.2.getD skin_load_ok
      let skins1 := if skin_load_ok1 then skins ++ [skin_info] else skins
      SkinFactory.installedSkinsLoop env skins1 skin_load_ok1 rest

/-- Source function `SkinFactory::installedSkins` (skinfactory.cpp, lines
167-188).  The flag `skin_load_ok` is declared without a value; `uninitialized`
is the value it happens to hold. -/
def SkinFactory.installedSkins (env : SkinEnvironment) (uninitialized : Bool) : List Skin :=
  let skin_directories :=
    env.entryList env.APP_SKIN_PATH ++ env.entryList env.userSkinBaseFolder
  SkinFactory.installedSkinsLoop env [] uninitialized skin_directories

/-- A file system for the concrete evaluations: the application skin folder
"skins" holds the directories "base" and "empty"; "base" has a metadata file
that parses and a layout markup file, "empty" has no metadata file; the user
skin folder "user" holds nothing. -/
def sampleSkinEnvironment : SkinEnvironment :=
  { APP_SKIN_PATH := "skins",
    APP_SKIN_METADATA_FILE := "metadata.xml",
    userSkinBaseFolder := "user",
    separator := "/",
    fileExists := fun path => decide (path = "skins/base/metadata.xml"),
    readMetadata := fun path =>
      if path = "skins/base/metadata.xml" then some ⟨"someone", "mail@example.org", "1"⟩
      else none,
    readTextFile := fun path =>
      if path = "skins/base/html_single_message.html" then "<img src=##/a.png>" else "",
    entryList := fun path => if path = "skins" then ["base", "empty"] else [] }

/-! Helper lemmas -/

/-- When the log after a call is the log before plus `l`, the call appended
exactly `l`. -/
theorem World.since_of_log_eq (before after : World) (l : List Event)
    (h : after.log = before.log ++ l) : before.since after = l := by
  simp [World.since, h]

/-! Theorems about `ServiceRoot::markAsReadUnread` -/

/-- C1, evaluated on the code where the claim fails: the transaction begins,
the UPDATE statement fails, the rollback succeeds and the later commit answers
success.  The function then falls through to the commit branch, recomputes the
counts, emits both notifications and returns true, not false. -/
theorem markAsReadUnread_update_failure_returns_true :
    ServiceRoot.markAsReadUnread ⟨1⟩ ReadStatus.Read ⟨true, false, true, true, false⟩ sampleWorld
      = (true,
         { tables := sampleTables, saved := none,
           log := [Event.transaction true,
                   Event.exec (Statement.updateMessagesRead 1 1) false,
                   Event.qDebug,
                   Event.rollback true,
                   Event.commit true,
                   Event.updateCounts false,
                   Event.dataChanged 1,
                   Event.reloadMessageListRequested true] }) := by
  decide

/-- C2, evaluated on the code where the claim fails: the transaction begins,
the UPDATE statement succeeds, the commit fails and the rollback that follows
succeeds.  The function returns the answer of that rollback, which is true,
although nothing was committed (the tables are back at their old contents). -/
theorem markAsReadUnread_commit_failure_returns_rollback_answer :
    ServiceRoot.markAsReadUnread ⟨1⟩ ReadStatus.Read ⟨true, true, false, false, true⟩ sampleWorld
      = (true,
         { tables := sampleTables, saved := none,
           log := [Event.transaction true,
                   Event.exec (Statement.updateMessagesRead 1 1) true,
                   Event.commit false,
                   Event.rollback true] }) := by
  decide

/-- C3: when the storage transaction cannot be started, `markAsReadUnread`
returns false, leaves the tables and the transaction snapshot as they were, and
the only things it did are the failed `transaction()` call and one warning
line: no statement is executed, commit and rollback are not called, the counts
are not recomputed and no notification is emitted. -/
theorem markAsReadUnread_begin_failure (self : ServiceRoot) (status : ReadStatus)
    (a : MarkAnswers) (w : World) (h : a.transaction = false) :
    (self.markAsReadUnread status a w).1 = false
    ∧ (self.markAsReadUnread status a w).2.tables = w.tables
    ∧ (self.markAsReadUnread status a w).2.saved = w.saved
    ∧ w.since (self.markAsReadUnread status a w).2 = [Event.transaction false, Event.qWarning]
    ∧ ∀ e ∈ w.since (self.markAsReadUnread status a w).2,
        e.isLaterDriverCall = false ∧ e.isPostCommit = false ∧ e.isNotification = false := by
  have hlog : w.since (self.markAsReadUnread status a w).2
      = [Event.transaction false, Event.qWarning] := by
    apply World.since_of_log_eq
    simp [ServiceRoot.markAsReadUnread, World.transaction, World.emit, h]
  refine ⟨?_, ?_, ?_, hlog, ?_⟩
  · simp [ServiceRoot.markAsReadUnread, World.transaction, World.emit, h]
  · simp [ServiceRoot.markAsReadUnread, World.transaction, World.emit, h]
  · simp [ServiceRoot.markAsReadUnread, World.transaction, World.emit, h]
  · intro e he
    rw [hlog] at he
    simp only [List.mem_cons, List.mem_singleton, List.not_mem_nil, or_false] at he
    rcases he with rfl | rfl <;> simp [Event.isLaterDriverCall, Event.isPostCommit, Event.isNotification]

/-- C3 at a concrete input: account 1, status Read, a driver that refuses to
start the transaction. -/
theorem markAsReadUnread_begin_failure_witness :
    (ServiceRoot.markAsReadUnread ⟨1⟩ ReadStatus.Read ⟨false, true, true, true, true⟩ sampleWorld).1 = false
    ∧ (ServiceRoot.markAsReadUnread ⟨1⟩ ReadStatus.Read ⟨false, true, true, true, true⟩ sampleWorld).2.tables
        = sampleWorld.tables
    ∧ (ServiceRoot.markAsReadUnread ⟨1⟩ ReadStatus.Read ⟨false, true, true, true, true⟩ sampleWorld).2.saved
        = sampleWorld.saved
    ∧ sampleWorld.since
        (ServiceRoot.markAsReadUnread ⟨1⟩ ReadStatus.Read ⟨false, true, true, true, true⟩ sampleWorld).2
        = [Event.transaction false, Event.qWarning]
    ∧ ∀ e ∈ sampleWorld.since
        (ServiceRoot.markAsReadUnread ⟨1⟩ ReadStatus.Read ⟨false, true, true, true, true⟩ sampleWorld).2,
        e.isLaterDriverCall = false ∧ e.isPostCommit = false ∧ e.isNotification = false :=
  markAsReadUnread_begin_failure ⟨1⟩ ReadStatus.Read ⟨false, true, true, true, true⟩ sampleWorld rfl

/-- C4, evaluated on the code where the claim fails: the transaction begins,
the UPDATE statement fails (so the transaction failed), and the commit that the
function still attempts answers success.  On this path `updateCounts(false)` is
invoked and the function returns true. -/
theorem markAsReadUnread_update_failure_recomputes_counts :
    (ServiceRoot.markAsReadUnread ⟨2⟩ ReadStatus.Unread ⟨true, false, true, true, true⟩ sampleWorld).1 = true
    ∧ Event.exec (Statement.updateMessagesRead 0 2) false
        ∈ sampleWorld.since
            (ServiceRoot.markAsReadUnread ⟨2⟩ ReadStatus.Unread ⟨true, false, true, true, true⟩ sampleWorld).2
    ∧ Event.updateCounts false
        ∈ sampleWorld.since
            (ServiceRoot.markAsReadUnread ⟨2⟩ ReadStatus.Unread ⟨true, false, true, true, true⟩ sampleWorld).2 := by
  decide

/-- C5: in every execution of `markAsReadUnread(status)`, either none of the
count recomputation, the data-changed notification and the reload-message-list
notification occurs, or the events of the call end with a `commit()` that
answered success followed by exactly `updateCounts(false)`, the data-changed
notification and the reload-message-list notification, in that order, with
none of the three occurring earlier; the reload notification carries true when
`status` is Read and false when it is Unread. -/
theorem markAsReadUnread_effects_only_after_commit (self : ServiceRoot) (status : ReadStatus)
    (a : MarkAnswers) (w : World) :
    (∀ e ∈ w.since (self.markAsReadUnread status a w).2, e.isPostCommit = false)
    ∨ ∃ pre : List Event,
        w.since (self.markAsReadUnread status a w).2
          = pre ++ [Event.commit true,
                    Event.updateCounts false,
                    Event.dataChanged self.accountId,
                    Event.reloadMessageListRequested
                      (match status with
                       | ReadStatus.Read => true
                       | ReadStatus.Unread => false)]
        ∧ ∀ e ∈ pre, e.isPostCommit = false := by
  rcases a with ⟨t, x, r1, c, r2⟩
  by_cases hc : t = true ∧ c = true
  · right
    obtain ⟨ht, hcm⟩ := hc
    subst ht hcm
    refine ⟨[Event.transaction true,
             Event.exec (Statement.updateMessagesRead
               (if status = ReadStatus.Read then 1 else 0) self.accountId) x]
            ++ (if x = true then [] else [Event.qDebug, Event.rollback r1]), ?_, ?_⟩
    · apply World.since_of_log_eq
      cases x <;> cases r1 <;> cases status <;>
        simp [ServiceRoot.markAsReadUnread, World.transaction, World.exec, World.commit,
          World.rollback, World.emit, ServiceRoot.updateCounts, ServiceRoot.itemChanged,
          ServiceRoot.requestReloadMessageList]
    · intro e he
      cases x <;> simp at he <;> rcases he with rfl | rfl | rfl | rfl <;>
        simp [Event.isPostCommit]
  · left
    have hlog : ∃ l : List Event, w.since
        (ServiceRoot.markAsReadUnread self status ⟨t, x, r1, c, r2⟩ w).2 = l
        ∧ ∀ e ∈ l, e.isPostCommit = false := by
      cases t
      · refine ⟨[Event.transaction false, Event.qWarning], ?_, ?_⟩
        · apply World.since_of_log_eq
          simp [ServiceRoot.markAsReadUnread, World.transaction, World.emit]
        · intro e he
          simp at he
          rcases he with rfl | rfl <;> simp [Event.isPostCommit]
      · have hcf : c = false := by
          cases c
          · rfl
          · exact absurd ⟨rfl, rfl⟩ hc
        subst hcf
        refine ⟨[Event.transaction true,
                 Event.exec (Statement.updateMessagesRead
                   (if status = ReadStatus.Read then 1 else 0) self.accountId) x]
                ++ (if x = true then [] else [Event.qDebug, Event.rollback r1])
                ++ [Event.commit false, Event.rollback r2], ?_, ?_⟩
        · apply World.since_of_log_eq
          cases x <;> cases r1 <;> cases r2 <;>
            simp [ServiceRoot.markAsReadUnread, World.transaction, World.exec, World.commit,
              World.rollback, World.emit]
        · intro e he
          cases x <;> simp at he <;>
            rcases he with rfl | rfl | rfl | rfl | rfl | rfl <;>
            simp [Event.isPostCommit]
    obtain ⟨l, hl, hall⟩ := hlog
    rw [hl]
    exact hall

/-- C6: when `transaction()`, the UPDATE statement and `commit()` all succeed,
`markAsReadUnread(status)` returns true and the Messages table afterwards has
the same rows in the same places, where a row with `account_id` equal to the
account id of the root and `is_pdeleted = 0` has `is_read` set to 1 (status
Read) or 0 (status Unread), every other row keeps its `is_read`, and every
column other than `is_read` is unchanged in every row. -/
theorem markAsReadUnread_success_sets_is_read (self : ServiceRoot) (status : ReadStatus)
    (a : MarkAnswers) (w : World)
    (ht : a.transaction = true) (hx : a.exec = true) (hc : a.commit = true) :
    (self.markAsReadUnread status a w).1 = true
    ∧ (self.markAsReadUnread status a w).2.tables.Messages.length = w.tables.Messages.length
    ∧ ∀ (i : Nat) (r : MessageRow), w.tables.Messages[i]? = some r →
        ∃ r2 : MessageRow,
          (self.markAsReadUnread status a w).2.tables.Messages[i]? = some r2
          ∧ r2.account_id = r.account_id
          ∧ r2.is_deleted = r.is_deleted
          ∧ r2.is_pdeleted = r.is_pdeleted
          ∧ r2.rest = r.rest
          ∧ (r.account_id = self.accountId ∧ r.is_pdeleted = 0 →
              r2.is_read = (match status with
                            | ReadStatus.Read => 1
                            | ReadStatus.Unread => 0))
          ∧ (¬ (r.account_id = self.accountId ∧ r.is_pdeleted = 0) → r2.is_read = r.is_read) := by
  have hT : (self.markAsReadUnread status a w).2.tables
      = (Statement.updateMessagesRead (if status = ReadStatus.Read then 1 else 0)
          self.accountId).run w.tables := by
    simp [ServiceRoot.markAsReadUnread, World.transaction, World.exec, World.commit,
      World.emit, ServiceRoot.updateCounts, ServiceRoot.itemChanged,
      ServiceRoot.requestReloadMessageList, ht, hx, hc]
  refine ⟨?_, ?_, ?_⟩
  · simp [ServiceRoot.markAsReadUnread, World.transaction, World.exec, World.commit,
      World.emit, ht, hx, hc]
  · rw [hT]
    simp [Statement.run]
  · intro i r hr
    rw [hT]
    by_cases hm : r.is_pdeleted = 0 ∧ r.account_id = self.accountId
    · refine ⟨{ r with is_read := if status = ReadStatus.Read then 1 else 0 }, ?_, rfl, rfl, rfl,
        rfl, ?_, ?_⟩
      · simp [Statement.run, hr, hm]
      · intro _
        cases status <;> simp
      · intro hn
        exact absurd ⟨hm.2, hm.1⟩ hn
    · refine ⟨r, ?_, rfl, rfl, rfl, rfl, ?_, ?_⟩
      · simp only [Statement.run, List.getElem?_map, hr, Option.map_some', if_neg hm]
      · intro hy
        exact absurd ⟨hy.2, hy.1⟩ hm
      · intro _
        rfl

/-- C6 at a concrete input: account 1, status Read, every driver call
succeeding, on the sample store. -/
theorem markAsReadUnread_success_sets_is_read_witness :
    (ServiceRoot.markAsReadUnread ⟨1⟩ ReadStatus.Read ⟨true, true, true, true, true⟩ sampleWorld).2.tables.Messages
      = [ ⟨1, 1, 0, 0, [10]⟩, ⟨1, 1, 1, 0, [11]⟩, ⟨1, 0, 0, 1, [12]⟩,
          ⟨2, 0, 0, 0, [13]⟩, ⟨1, 1, 0, 0, [14]⟩ ]
    ∧ ∃ r2 : MessageRow,
        (ServiceRoot.markAsReadUnread ⟨1⟩ ReadStatus.Read ⟨true, true, true, true, true⟩
            sampleWorld).2.tables.Messages[0]? = some r2
        ∧ r2.account_id = 1 ∧ r2.is_deleted = 0 ∧ r2.is_pdeleted = 0 ∧ r2.rest = [10]
        ∧ r2.is_read = 1 := by
  refine ⟨by decide, ?_⟩
  obtain ⟨r2, h1, h2, h3, h4, h5, h6, _⟩ :=
    (markAsReadUnread_success_sets_is_read ⟨1⟩ ReadStatus.Read ⟨true, true, true, true, true⟩
      sampleWorld rfl rfl rfl).2.2 0 ⟨1, 0, 0, 0, [10]⟩ rfl
  exact ⟨r2, h1, h2, h3, h4, h5, h6 ⟨rfl, rfl⟩⟩

/-- C7 as stated fails: in the sample store the message at position 1 belongs
to account 1 and is soft-deleted (`is_deleted = 1`, `is_pdeleted = 0`) with
`is_read = 0`; after `markAsReadUnread(Read)` on the root of account 1, with
every driver call succeeding, its `is_read` is 1. -/
theorem markAsReadUnread_changes_soft_deleted_message :
    sampleWorld.tables.Messages[1]? = some ⟨1, 0, 1, 0, [11]⟩
    ∧ (ServiceRoot.markAsReadUnread ⟨1⟩ ReadStatus.Read ⟨true, true, true, true, true⟩
        sampleWorld).2.tables.Messages[1]? = some ⟨1, 1, 1, 0, [11]⟩ := by
  decide

/-- C7 amended: `markAsReadUnread` changes the read flag only of messages of
its own account with `is_pdeleted = 0`.  Every message that before the call has
`is_pdeleted` different from 0, or belongs to another account, is the same row
after the call, so its `is_read` value is the same, for either status and
whatever the driver calls answer. -/
theorem markAsReadUnread_keeps_pdeleted_and_foreign_rows (self : ServiceRoot)
    (status : ReadStatus) (a : MarkAnswers) (w : World) (i : Nat) (r : MessageRow)
    (hr : w.tables.Messages[i]? = some r)
    (hp : r.is_pdeleted ≠ 0 ∨ r.account_id ≠ self.accountId) :
    (self.markAsReadUnread status a w).2.tables.Messages[i]? = some r := by
  have hm : ¬ (r.is_pdeleted = 0 ∧ r.account_id = self.accountId) := by
    rintro ⟨h0, h1⟩
    rcases hp with h | h
    · exact h h0
    · exact h h1
  have hrun : ∀ v : Int,
      ((Statement.updateMessagesRead v self.accountId).run w.tables).Messages[i]? = some r := by
    intro v
    simp only [Statement.run, List.getElem?_map, hr, Option.map_some', if_neg hm]
  have hcases : (self.markAsReadUnread status a w).2.tables = w.tables
      ∨ (self.markAsReadUnread status a w).2.tables
          = (Statement.updateMessagesRead (if status = ReadStatus.Read then 1 else 0)
              self.accountId).run w.tables := by
    rcases a with ⟨t, x, r1, c, r2⟩
    cases t <;> cases x <;> cases r1 <;> cases c <;> cases r2 <;>
      simp [ServiceRoot.markAsReadUnread, World.transaction, World.exec, World.commit,
        World.rollback, World.emit, ServiceRoot.updateCounts, ServiceRoot.itemChanged,
        ServiceRoot.requestReloadMessageList]
  rcases hcases with h | h
  · rw [h]
    exact hr
  · rw [h]
    exact hrun _

/-- C7 amended, at a concrete input: the message at position 2 of the sample
store has `is_pdeleted = 1`; it is untouched by `markAsReadUnread(Read)` on the
root of its account. -/
theorem markAsReadUnread_keeps_pdeleted_and_foreign_rows_witness :
    (ServiceRoot.markAsReadUnread ⟨1⟩ ReadStatus.Read ⟨true, true, true, true, true⟩
        sampleWorld).2.tables.Messages[2]? = some ⟨1, 0, 0, 1, [12]⟩ :=
  markAsReadUnread_keeps_pdeleted_and_foreign_rows ⟨1⟩ ReadStatus.Read
    ⟨true, true, true, true, true⟩ sampleWorld 2 ⟨1, 0, 0, 1, [12]⟩ rfl (Or.inl (by decide))

/-! Theorems about `ServiceRoot::deleteViaGui` -/

/-- C8: `deleteViaGui` runs the DELETE statements in the order Messages,
Feeds, Categories, Accounts.  If the Messages statement fails, nothing else is
executed, the function returns false and the tables are as before.  If the
Feeds statement fails, nothing after it is executed, the function returns false
and the tables are those left by the Messages deletion.  If the Categories
statement fails, nothing after it is executed, the function returns false and
the tables are those left by the Messages and Feeds deletions.  No rollback is
ever called. -/
theorem deleteViaGui_aborts_without_rollback (self : ServiceRoot) (a : DeleteAnswers)
    (w : World) :
    (a.messages = false →
        (self.deleteViaGui a w).1 = false
        ∧ w.since (self.deleteViaGui a w).2
            = [Event.exec (Statement.deleteMessages self.accountId) false]
        ∧ (self.deleteViaGui a w).2.tables = w.tables)
    ∧ (a.messages = true → a.feeds = false →
        (self.deleteViaGui a w).1 = false
        ∧ w.since (self.deleteViaGui a w).2
            = [Event.exec (Statement.deleteMessages self.accountId) true,
               Event.exec (Statement.deleteFeeds self.accountId) false]
        ∧ (self.deleteViaGui a w).2.tables
            = (Statement.deleteMessages self.accountId).run w.tables)
    ∧ (a.messages = true → a.feeds = true → a.categories = false →
        (self.deleteViaGui a w).1 = false
        ∧ w.since (self.deleteViaGui a w).2
            = [Event.exec (Statement.deleteMessages self.accountId) true,
               Event.exec (Statement.deleteFeeds self.accountId) true,
               Event.exec (Statement.deleteCategories self.accountId) false]
        ∧ (self.deleteViaGui a w).2.tables
            = (Statement.deleteFeeds self.accountId).run
                ((Statement.deleteMessages self.accountId).run w.tables))
    ∧ (a.messages = true → a.feeds = true → a.categories = true →
        w.since (self.deleteViaGui a w).2
            = [Event.exec (Statement.deleteMessages self.accountId) true,
               Event.exec (Statement.deleteFeeds self.accountId) true,
               Event.exec (Statement.deleteCategories self.accountId) true,
               Event.exec (Statement.deleteAccounts self.accountId) a.accounts]
              ++ (if a.accounts = true then [Event.itemRemovalRequested self.accountId] else []))
    ∧ (∀ ok : Bool, Event.rollback ok ∉ w.since (self.deleteViaGui a w).2) := by
  rcases a with ⟨m, f, c, x⟩
  refine ⟨?_, ?_, ?_, ?_, ?_⟩
  · intro hm
    simp only at hm
    subst hm
    refine ⟨?_, ?_, ?_⟩
    · simp [ServiceRoot.deleteViaGui, World.exec, World.emit]
    · apply World.since_of_log_eq
      simp [ServiceRoot.deleteViaGui, World.exec, World.emit]
    · simp [ServiceRoot.deleteViaGui, World.exec, World.emit]
  · intro hm hf
    simp only at hm hf
    subst hm hf
    refine ⟨?_, ?_, ?_⟩
    · simp [ServiceRoot.deleteViaGui, World.exec, World.emit]
    · apply World.since_of_log_eq
      simp [ServiceRoot.deleteViaGui, World.exec, World.emit]
    · simp [ServiceRoot.deleteViaGui, World.exec, World.emit]
  · intro hm hf hc
    simp only at hm hf hc
    subst hm hf hc
    refine ⟨?_, ?_, ?_⟩
    · simp [ServiceRoot.deleteViaGui, World.exec, World.emit]
    · apply World.since_of_log_eq
      simp [ServiceRoot.deleteViaGui, World.exec, World.emit]
    · simp [ServiceRoot.deleteViaGui, World.exec, World.emit]
  · intro hm hf hc
    simp only at hm hf hc
    subst hm hf hc
    apply World.since_of_log_eq
    cases x <;>
      simp [ServiceRoot.deleteViaGui, World.exec, World.emit, ServiceRoot.requestItemRemoval]
  · intro ok
    have hlog : ∃ l : List Event,
        w.since (ServiceRoot.deleteViaGui self ⟨m, f, c, x⟩ w).2 = l ∧ Event.rollback ok ∉ l := by
      cases m <;> cases f <;> cases c <;> cases x <;>
        exact ⟨_, World.since_of_log_eq _ _ _ (by
          simp [ServiceRoot.deleteViaGui, World.exec, World.emit,
            ServiceRoot.requestItemRemoval]
          rfl), by simp⟩
    obtain ⟨l, hl, hn⟩ := hlog
    rw [hl]
    exact hn

/-- C8 at concrete inputs on the sample store, one for each of the first three
statements failing: the return value, the statements executed, and the tables
left behind (earlier deletions persist). -/
theorem deleteViaGui_aborts_without_rollback_witness :
    ((ServiceRoot.deleteViaGui ⟨1⟩ ⟨false, true, true, true⟩ sampleWorld).1 = false
      ∧ sampleWorld.since (ServiceRoot.deleteViaGui ⟨1⟩ ⟨false, true, true, true⟩ sampleWorld).2
          = [Event.exec (Statement.deleteMessages 1) false]
      ∧ (ServiceRoot.deleteViaGui ⟨1⟩ ⟨false, true, true, true⟩ sampleWorld).2.tables
          = sampleTables)
    ∧ ((ServiceRoot.deleteViaGui ⟨1⟩ ⟨true, false, true, true⟩ sampleWorld).1 = false
      ∧ sampleWorld.since (ServiceRoot.deleteViaGui ⟨1⟩ ⟨true, false, true, true⟩ sampleWorld).2
          = [Event.exec (Statement.deleteMessages 1) true,
             Event.exec (Statement.deleteFeeds 1) false]
      ∧ (ServiceRoot.deleteViaGui ⟨1⟩ ⟨true, false, true, true⟩ sampleWorld).2.tables
          = (Statement.deleteMessages 1).run sampleTables)
    ∧ ((ServiceRoot.deleteViaGui ⟨1⟩ ⟨true, true, false, true⟩ sampleWorld).1 = false
      ∧ sampleWorld.since (ServiceRoot.deleteViaGui ⟨1⟩ ⟨true, true, false, true⟩ sampleWorld).2
          = [Event.exec (Statement.deleteMessages 1) true,
             Event.exec (Statement.deleteFeeds 1) true,
             Event.exec (Statement.deleteCategories 1) false]
      ∧ (ServiceRoot.deleteViaGui ⟨1⟩ ⟨true, true, false, true⟩ sampleWorld).2.tables
          = (Statement.deleteFeeds 1).run ((Statement.deleteMessages 1).run sampleTables)) :=
  ⟨(deleteViaGui_aborts_without_rollback ⟨1⟩ ⟨false, true, true, true⟩ sampleWorld).1 rfl,
   (deleteViaGui_aborts_without_rollback ⟨1⟩ ⟨true, false, true, true⟩ sampleWorld).2.1 rfl rfl,
   (deleteViaGui_aborts_without_rollback ⟨1⟩ ⟨true, true, false, true⟩ sampleWorld).2.2.1
      rfl rfl rfl⟩

/-- C9: `deleteViaGui` emits `itemRemovalRequested` for the root exactly when
all four DELETE statements were executed and answered success, it returns true
in exactly that case and false in every other, and when it does request the
removal it does so once, as the last thing after the four statements. -/
theorem deleteViaGui_requests_removal_iff_all_succeed (self : ServiceRoot)
    (a : DeleteAnswers) (w : World) :
    (Event.itemRemovalRequested self.accountId ∈ w.since (self.deleteViaGui a w).2
      ↔ (Event.exec (Statement.deleteMessages self.accountId) true
            ∈ w.since (self.deleteViaGui a w).2
          ∧ Event.exec (Statement.deleteFeeds self.accountId) true
            ∈ w.since (self.deleteViaGui a w).2
          ∧ Event.exec (Statement.deleteCategories self.accountId) true
            ∈ w.since (self.deleteViaGui a w).2
          ∧ Event.exec (Statement.deleteAccounts self.accountId) true
            ∈ w.since (self.deleteViaGui a w).2))
    ∧ ((self.deleteViaGui a w).1 = true
      ↔ Event.itemRemovalRequested self.accountId ∈ w.since (self.deleteViaGui a w).2)
    ∧ ((self.deleteViaGui a w).1 = false
      ↔ Event.itemRemovalRequested self.accountId ∉ w.since (self.deleteViaGui a w).2)
    ∧ ((self.deleteViaGui a w).1 = true
      ↔ (a.messages = true ∧ a.feeds = true ∧ a.categories = true ∧ a.accounts = true))
    ∧ ((self.deleteViaGui a w).1 = true →
        w.since (self.deleteViaGui a w).2
          = [Event.exec (Statement.deleteMessages self.accountId) true,
             Event.exec (Statement.deleteFeeds self.accountId) true,
             Event.exec (Statement.deleteCategories self.accountId) true,
             Event.exec (Statement.deleteAccounts self.accountId) true,
             Event.itemRemovalRequested self.accountId]) := by
  rcases a with ⟨m, f, c, x⟩
  have hlog : w.since (ServiceRoot.deleteViaGui self ⟨m, f, c, x⟩ w).2
      = (Event.exec (Statement.deleteMessages self.accountId) m ::
          (if m = true then
            Event.exec (Statement.deleteFeeds self.accountId) f ::
              (if f = true then
                Event.exec (Statement.deleteCategories self.accountId) c ::
                  (if c = true then
                    Event.exec (Statement.deleteAccounts self.accountId) x ::
                      (if x = true then [Event.itemRemovalRequested self.accountId] else [])
                   else [])
               else [])
           else [])) := by
    apply World.since_of_log_eq
    cases m <;> cases f <;> cases c <;> cases x <;>
      simp [ServiceRoot.deleteViaGui, World.exec, World.emit, ServiceRoot.requestItemRemoval]
  have hret : (ServiceRoot.deleteViaGui self ⟨m, f, c, x⟩ w).1 = (m && f && c && x) := by
    cases m <;> cases f <;> cases c <;> cases x <;>
      simp [ServiceRoot.deleteViaGui, World.exec, World.emit]
  rw [hlog, hret]
  cases m <;> cases f <;> cases c <;> cases x <;> simp

/-- C9 at a concrete input: on the sample store, with all four statements
succeeding, the call returns true and its events are the four statements
followed by the removal request. -/
theorem deleteViaGui_requests_removal_iff_all_succeed_witness :
    (ServiceRoot.deleteViaGui ⟨1⟩ ⟨true, true, true, true⟩ sampleWorld).1 = true
    ∧ sampleWorld.since (ServiceRoot.deleteViaGui ⟨1⟩ ⟨true, true, true, true⟩ sampleWorld).2
        = [Event.exec (Statement.deleteMessages 1) true,
           Event.exec (Statement.deleteFeeds 1) true,
           Event.exec (Statement.deleteCategories 1) true,
           Event.exec (Statement.deleteAccounts 1) true,
           Event.itemRemovalRequested 1] :=
  ⟨by decide,
   (deleteViaGui_requests_removal_iff_all_succeed ⟨1⟩ ⟨true, true, true, true⟩
      sampleWorld).2.2.2.2 (by decide)⟩

/-- C10: when `deleteViaGui` returns true, the Messages, Feeds and Categories
tables hold no row with `account_id` equal to the account id of the root, the
Accounts table holds no row with that `id`, and in each of the four tables the
rows of the other accounts are exactly the ones from before, unchanged and in
the same order. -/
theorem deleteViaGui_success_removes_account_rows (self : ServiceRoot) (a : DeleteAnswers)
    (w : World) (h : (self.deleteViaGui a w).1 = true) :
    (∀ r ∈ (self.deleteViaGui a w).2.tables.Messages, r.account_id ≠ self.accountId)
    ∧ (∀ r ∈ (self.deleteViaGui a w).2.tables.Feeds, r.account_id ≠ self.accountId)
    ∧ (∀ r ∈ (self.deleteViaGui a w).2.tables.Categories, r.account_id ≠ self.accountId)
    ∧ (∀ r ∈ (self.deleteViaGui a w).2.tables.Accounts, r.id ≠ self.accountId)
    ∧ (self.deleteViaGui a w).2.tables.Messages
        = w.tables.Messages.filter (fun r => decide (r.account_id ≠ self.accountId))
    ∧ (self.deleteViaGui a w).2.tables.Feeds
        = w.tables.Feeds.filter (fun r => decide (r.account_id ≠ self.accountId))
    ∧ (self.deleteViaGui a w).2.tables.Categories
        = w.tables.Categories.filter (fun r => decide (r.account_id ≠ self.accountId))
    ∧ (self.deleteViaGui a w).2.tables.Accounts
        = w.tables.Accounts.filter (fun r => decide (r.id ≠ self.accountId)) := by
  rcases a with ⟨m, f, c, x⟩
  have hall : m = true ∧ f = true ∧ c = true ∧ x = true := by
    cases m <;> cases f <;> cases c <;> cases x <;>
      simp [ServiceRoot.deleteViaGui, World.exec, World.emit] at h ⊢
  obtain ⟨rfl, rfl, rfl, rfl⟩ := hall
  have hT : (ServiceRoot.deleteViaGui self ⟨true, true, true, true⟩ w).2.tables
      = (Statement.deleteAccounts self.accountId).run
          ((Statement.deleteCategories self.accountId).run
            ((Statement.deleteFeeds self.accountId).run
              ((Statement.deleteMessages self.accountId).run w.tables))) := by
    simp [ServiceRoot.deleteViaGui, World.exec, World.emit, ServiceRoot.requestItemRemoval]
  rw [hT]
  refine ⟨?_, ?_, ?_, ?_, ?_, ?_, ?_, ?_⟩
  · intro r hr
    simp [Statement.run, List.mem_filter] at hr
    exact hr.2
  · intro r hr
    simp [Statement.run, List.mem_filter] at hr
    exact hr.2
  · intro r hr
    simp [Statement.run, List.mem_filter] at hr
    exact hr.2
  · intro r hr
    simp [Statement.run, List.mem_filter] at hr
    exact hr.2
  · simp [Statement.run]
  · simp [Statement.run]
  · simp [Statement.run]
  · simp [Statement.run]

/-- C10 at a concrete input: deleting account 1 from the sample store, with
all four statements succeeding, leaves exactly the rows of account 2. -/
theorem deleteViaGui_success_removes_account_rows_witness :
    (ServiceRoot.deleteViaGui ⟨1⟩ ⟨true, true, true, true⟩ sampleWorld).1 = true
    ∧ (ServiceRoot.deleteViaGui ⟨1⟩ ⟨true, true, true, true⟩ sampleWorld).2.tables
        = { Messages := [⟨2, 0, 0, 0, [13]⟩], Feeds := [⟨2, [21]⟩],
            Categories := [⟨2, [31]⟩], Accounts := [⟨2, [41]⟩] }
    ∧ (∀ r ∈ (ServiceRoot.deleteViaGui ⟨1⟩ ⟨true, true, true, true⟩ sampleWorld).2.tables.Messages,
        r.account_id ≠ (ServiceRoot.mk 1).accountId) :=
  ⟨by decide, by decide,
   (deleteViaGui_success_removes_account_rows ⟨1⟩ ⟨true, true, true, true⟩ sampleWorld
      (by decide)).1⟩

/-! Theorems about the feeds view -/

/-- When the log after a call of the view is the log before plus `l`, the call
appended exactly `l`. -/
theorem FeedsView.since_of_view_log_eq (before after : FeedsView) (l : List ViewEvent)
    (h : after.log = before.log ++ l) : before.since after = l := by
  simp [FeedsView.since, h]

/-- Taking the lock does not change what is selected. -/
theorem FeedsView.selectedItem_tryLock (v : FeedsView) :
    (v.tryLock).2.selectedItem = v.selectedItem := by
  cases hl : v.feedUpdateLocked <;>
    simp [FeedsView.tryLock, FeedsView.emit, FeedsView.selectedItem, hl]

/-- The events of `deleteSelectedItem`, path by path. -/
theorem FeedsView.since_deleteSelectedItem (v : FeedsView) (g : GuiAnswers) :
    v.since (v.deleteSelectedItem g) = v.deleteSelectedItemEvents g := by
  apply FeedsView.since_of_view_log_eq
  have hsel := FeedsView.selectedItem_tryLock v
  unfold FeedsView.deleteSelectedItem FeedsView.deleteSelectedItemEvents
  simp only [hsel]
  cases hl : v.feedUpdateLocked
  · cases hc : v.currentIndexValid
    · simp [FeedsView.tryLock, FeedsView.emit, FeedsView.unlock, hl, hc]
    · cases hs : v.selectedItem with
      | none =>
          simp [FeedsView.tryLock, FeedsView.emit, FeedsView.unlock, hl, hc]
      | some item =>
          cases hd : item.canBeDeleted
          · simp [FeedsView.tryLock, FeedsView.emit, FeedsView.unlock,
              FeedsView.showGuiMessage, hl, hc, hd]
          · by_cases hn : g.confirm = StandardButton.No
            · simp [FeedsView.tryLock, FeedsView.emit, FeedsView.unlock, hl, hc, hd, hn]
            · cases hr : (g.deleteViaGui item v.world).1 <;>
                simp [FeedsView.tryLock, FeedsView.emit, FeedsView.unlock,
                  FeedsView.showGuiMessage, hl, hc, hd, hn, hr]
  · simp [FeedsView.tryLock, FeedsView.emit, FeedsView.showGuiMessage, hl]

/-- The store after `deleteSelectedItem`: it is the one `deleteViaGui` of the
selected item leaves when that call is reached, and the old one otherwise. -/
theorem FeedsView.world_deleteSelectedItem (v : FeedsView) (g : GuiAnswers) :
    (v.deleteSelectedItem g).world
      = (if v.feedUpdateLocked then v.world
         else if !v.currentIndexValid then v.world
         else
           match v.selectedItem with
           | none => v.world
           | some item =>
               if item.canBeDeleted then
                 (if g.confirm = StandardButton.No then v.world
                  else (g.deleteViaGui item v.world).2)
               else v.world) := by
  have hsel := FeedsView.selectedItem_tryLock v
  unfold FeedsView.deleteSelectedItem
  simp only [hsel]
  cases hl : v.feedUpdateLocked
  · cases hc : v.currentIndexValid
    · simp [FeedsView.tryLock, FeedsView.emit, FeedsView.unlock, hl, hc]
    · cases hs : v.selectedItem with
      | none =>
          simp [FeedsView.tryLock, FeedsView.emit, FeedsView.unlock, hl, hc]
      | some item =>
          cases hd : item.canBeDeleted
          · simp [FeedsView.tryLock, FeedsView.emit, FeedsView.unlock,
              FeedsView.showGuiMessage, hl, hc, hd]
          · by_cases hn : g.confirm = StandardButton.No
            · simp [FeedsView.tryLock, FeedsView.emit, FeedsView.unlock, hl, hc, hd, hn]
            · cases hr : (g.deleteViaGui item v.world).1 <;>
                simp [FeedsView.tryLock, FeedsView.emit, FeedsView.unlock,
                  FeedsView.showGuiMessage, hl, hc, hd, hn, hr]
  · simp [FeedsView.tryLock, FeedsView.emit, FeedsView.showGuiMessage, hl]

/-- The guard of `deleteSelectedItem` as coded: whenever `deleteViaGui` is
invoked, the events of the call begin with the successful `tryLock`, the
confirmation question and then the `deleteViaGui` call, and the answer to the
question was not No; whenever the answer is No, `deleteViaGui` is not invoked
and the store is unchanged. -/
theorem FeedsView.deleteSelectedItem_guard (v : FeedsView) (g : GuiAnswers) :
    (∀ (a : Nat) (ok : Bool),
        ViewEvent.deleteViaGui a ok ∈ v.since (v.deleteSelectedItem g) →
          g.confirm ≠ StandardButton.No
          ∧ ∃ post : List ViewEvent,
              v.since (v.deleteSelectedItem g)
                = [ViewEvent.tryLock true, ViewEvent.confirmDelete g.confirm,
                   ViewEvent.deleteViaGui a ok] ++ post)
    ∧ (g.confirm = StandardButton.No →
        (∀ (a : Nat) (ok : Bool),
            ViewEvent.deleteViaGui a ok ∉ v.since (v.deleteSelectedItem g))
        ∧ (v.deleteSelectedItem g).world = v.world) := by
  rw [FeedsView.since_deleteSelectedItem, FeedsView.world_deleteSelectedItem]
  unfold FeedsView.deleteSelectedItemEvents
  cases hl : v.feedUpdateLocked
  · cases hc : v.currentIndexValid
    · simp
    · cases hs : v.selectedItem with
      | none => simp
      | some item =>
          cases hd : item.canBeDeleted
          · simp [hd]
          · by_cases hn : g.confirm = StandardButton.No
            · simp [hd, hn]
            · cases hr : (g.deleteViaGui item v.world).1
              · simp only [hd, hn, hr, if_true, if_false]
                refine ⟨?_, fun h => h.elim⟩
                intro a ok hmem
                simp at hmem
                obtain ⟨rfl, rfl⟩ := hmem
                exact ⟨hn, _, rfl⟩
              · simp only [hd, hn, hr, if_true, if_false]
                refine ⟨?_, fun h => h.elim⟩
                intro a ok hmem
                simp at hmem
                obtain ⟨rfl, rfl⟩ := hmem
                exact ⟨hn, _, rfl⟩
  · simp

/-- C11: `deleteSelectedItem` calls `deleteViaGui` on the selected item only
after explicit confirmation.  The confirmation question is shown with the
buttons Yes and No (feedsview.cpp, lines 268-273), so the answer of the user is
one of the two.  In every execution in which `deleteViaGui` is invoked, the
events of the call begin with the successful `tryLock`, the confirmation
question and then the `deleteViaGui` call, and the answer was Yes.  Whenever the
answer is not Yes, `deleteViaGui` is not invoked and the store is unchanged, so
no item is deleted. -/
theorem deleteSelectedItem_deletes_only_after_yes (v : FeedsView) (g : GuiAnswers)
    (hoffered : g.confirm = StandardButton.Yes ∨ g.confirm = StandardButton.No) :
    (∀ (a : Nat) (ok : Bool),
        ViewEvent.deleteViaGui a ok ∈ v.since (v.deleteSelectedItem g) →
          g.confirm = StandardButton.Yes
          ∧ ∃ post : List ViewEvent,
              v.since (v.deleteSelectedItem g)
                = [ViewEvent.tryLock true, ViewEvent.confirmDelete StandardButton.Yes,
                   ViewEvent.deleteViaGui a ok] ++ post)
    ∧ (g.confirm ≠ StandardButton.Yes →
        (∀ (a : Nat) (ok : Bool),
            ViewEvent.deleteViaGui a ok ∉ v.since (v.deleteSelectedItem g))
        ∧ (v.deleteSelectedItem g).world = v.world) := by
  have hguard := FeedsView.deleteSelectedItem_guard v g
  constructor
  · intro a ok hmem
    obtain ⟨hno, post, hpost⟩ := hguard.1 a ok hmem
    have hyes : g.confirm = StandardButton.Yes := by
      rcases hoffered with h | h
      · exact h
      · exact absurd h hno
    refine ⟨hyes, post, ?_⟩
    rw [hpost, hyes]
  · intro hnotyes
    have hno : g.confirm = StandardButton.No := by
      rcases hoffered with h | h
      · exact absurd h hnotyes
      · exact h
    exact hguard.2 hno

/-- C11 at concrete inputs on the sample view with the account selected:
answered with Yes, the `deleteViaGui` call comes right after the lock and the
question; answered with No, there is no such call and the store is the old
one. -/
theorem deleteSelectedItem_deletes_only_after_yes_witness :
    (StandardButton.Yes = StandardButton.Yes
      ∧ ∃ post : List ViewEvent,
          (sampleView false [sampleAccount]).since
              ((sampleView false [sampleAccount]).deleteSelectedItem (sampleGui StandardButton.Yes))
            = [ViewEvent.tryLock true, ViewEvent.confirmDelete StandardButton.Yes,
               ViewEvent.deleteViaGui 1 true] ++ post)
    ∧ ((∀ (a : Nat) (ok : Bool),
          ViewEvent.deleteViaGui a ok ∉
            (sampleView false [sampleAccount]).since
              ((sampleView false [sampleAccount]).deleteSelectedItem (sampleGui StandardButton.No)))
        ∧ ((sampleView false [sampleAccount]).deleteSelectedItem
              (sampleGui StandardButton.No)).world = sampleWorld) :=
  ⟨(deleteSelectedItem_deletes_only_after_yes (sampleView false [sampleAccount])
      (sampleGui StandardButton.Yes) (Or.inl rfl)).1 1 true (by decide),
   (deleteSelectedItem_deletes_only_after_yes (sampleView false [sampleAccount])
      (sampleGui StandardButton.No) (Or.inr rfl)).2 (by decide)⟩

/-- C12: when the feed-update lock is taken, so that the non-blocking
`tryLock` fails, `editSelectedItem` and `deleteSelectedItem` both return with
the state of the view unchanged except for two events: the one failed `tryLock`
and the message to the user.  In particular `editViaGui` and `deleteViaGui` are
not called, the confirmation question is not shown, and the lock is not tried a
second time. -/
theorem edit_and_delete_refused_when_locked (v : FeedsView) (g : GuiAnswers)
    (h : v.feedUpdateLocked = true) :
    v.editSelectedItem g
      = Outcome.returned
          { v with log := v.log ++ [ViewEvent.tryLock false,
                                     ViewEvent.showGuiMessage GuiMessage.cannotEditLocked] }
    ∧ v.deleteSelectedItem g
      = { v with log := v.log ++ [ViewEvent.tryLock false,
                                   ViewEvent.showGuiMessage GuiMessage.cannotDeleteLocked] } := by
  constructor
  · simp [FeedsView.editSelectedItem, FeedsView.tryLock, FeedsView.emit,
      FeedsView.showGuiMessage, h]
  · simp [FeedsView.deleteSelectedItem, FeedsView.tryLock, FeedsView.emit,
      FeedsView.showGuiMessage, h]

/-- C12 at a concrete input: the sample view with the lock taken and the
account selected. -/
theorem edit_and_delete_refused_when_locked_witness :
    (sampleView true [sampleAccount]).editSelectedItem (sampleGui StandardButton.Yes)
      = Outcome.returned
          { sampleView true [sampleAccount] with
            log := [ViewEvent.tryLock false,
                    ViewEvent.showGuiMessage GuiMessage.cannotEditLocked] }
    ∧ (sampleView true [sampleAccount]).deleteSelectedItem (sampleGui StandardButton.Yes)
      = { sampleView true [sampleAccount] with
          log := [ViewEvent.tryLock false,
                  ViewEvent.showGuiMessage GuiMessage.cannotDeleteLocked] } :=
  edit_and_delete_refused_when_locked (sampleView true [sampleAccount])
    (sampleGui StandardButton.Yes) rfl

/-- C13: for a selected item that does not support the operation, the view
changes nothing but its event log, and the events are lock calls and one
message only.  With `canBeDeleted()` false, `deleteSelectedItem` leaves every
part of the state as it was, calls neither `deleteViaGui` nor the confirmation
question, and, when it got the lock and the current index is valid, does
exactly: `tryLock`, the "cannot delete" message, `unlock`.  With
`canBeEdited()` false, `editSelectedItem` returns, leaves every part of the
state as it was, does not call `editViaGui`, and, when it got the lock, does
exactly: `tryLock`, the "cannot edit" message, `unlock`. -/
theorem unsupported_operation_changes_nothing (v : FeedsView) (g : GuiAnswers)
    (item : RootItem) (hs : v.selectedItem = some item) :
    (item.canBeDeleted = false →
      ∃ l : List ViewEvent,
        v.deleteSelectedItem g = { v with log := v.log ++ l }
        ∧ (∀ e ∈ l, e.isConfirmOrItemCall = false)
        ∧ (v.feedUpdateLocked = false → v.currentIndexValid = true →
            l = [ViewEvent.tryLock true,
                 ViewEvent.showGuiMessage GuiMessage.cannotDeleteUnsupported,
                 ViewEvent.unlock]))
    ∧ (item.canBeEdited = false →
      ∃ l : List ViewEvent,
        v.editSelectedItem g = Outcome.returned { v with log := v.log ++ l }
        ∧ (∀ e ∈ l, e.isConfirmOrItemCall = false)
        ∧ (v.feedUpdateLocked = false →
            l = [ViewEvent.tryLock true,
                 ViewEvent.showGuiMessage GuiMessage.cannotEditUnsupported,
                 ViewEvent.unlock])) := by
  have hsel := FeedsView.selectedItem_tryLock v
  rw [hs] at hsel
  constructor
  · intro hd
    cases hl : v.feedUpdateLocked
    · cases hc : v.currentIndexValid
      · refine ⟨[ViewEvent.tryLock true, ViewEvent.unlock], ?_, ?_, ?_⟩
        · unfold FeedsView.deleteSelectedItem
          simp [FeedsView.tryLock, FeedsView.emit, FeedsView.unlock, hl, hc]
        · intro e he
          simp at he
          rcases he with rfl | rfl <;> rfl
        · intro _ h
          simp at h
      · refine ⟨[ViewEvent.tryLock true,
                 ViewEvent.showGuiMessage GuiMessage.cannotDeleteUnsupported,
                 ViewEvent.unlock], ?_, ?_, ?_⟩
        · unfold FeedsView.deleteSelectedItem
          simp only [hsel]
          simp [FeedsView.tryLock, FeedsView.emit, FeedsView.unlock,
            FeedsView.showGuiMessage, hl, hc, hd]
        · intro e he
          simp at he
          rcases he with rfl | rfl | rfl <;> rfl
        · intro _ _
          rfl
    · refine ⟨[ViewEvent.tryLock false,
               ViewEvent.showGuiMessage GuiMessage.cannotDeleteLocked], ?_, ?_, ?_⟩
      · simp [FeedsView.deleteSelectedItem, FeedsView.tryLock, FeedsView.emit,
          FeedsView.showGuiMessage, hl]
      · intro e he
        simp at he
        rcases he with rfl | rfl <;> rfl
      · intro h
        simp at h
  · intro he
    cases hl : v.feedUpdateLocked
    · refine ⟨[ViewEvent.tryLock true,
               ViewEvent.showGuiMessage GuiMessage.cannotEditUnsupported,
               ViewEvent.unlock], ?_, ?_, ?_⟩
      · unfold FeedsView.editSelectedItem
        simp only [hsel]
        simp [FeedsView.tryLock, FeedsView.emit, FeedsView.unlock,
          FeedsView.showGuiMessage, hl, he]
      · intro e hmem
        simp at hmem
        rcases hmem with rfl | rfl | rfl <;> rfl
      · intro _
        rfl
    · refine ⟨[ViewEvent.tryLock false,
               ViewEvent.showGuiMessage GuiMessage.cannotEditLocked], ?_, ?_, ?_⟩
      · simp [FeedsView.editSelectedItem, FeedsView.tryLock, FeedsView.emit,
          FeedsView.showGuiMessage, hl]
      · intro e hmem
        simp at hmem
        rcases hmem with rfl | rfl <;> rfl
      · intro h
        simp at h

/-- C13 at a concrete input: the sample view with the empty category selected,
which supports neither deleting nor editing. -/
theorem unsupported_operation_changes_nothing_witness :
    (∃ l : List ViewEvent,
        (sampleView false [sampleEmptyCategory]).deleteSelectedItem (sampleGui StandardButton.Yes)
          = { sampleView false [sampleEmptyCategory] with
              log := (sampleView false [sampleEmptyCategory]).log ++ l }
        ∧ (∀ e ∈ l, e.isConfirmOrItemCall = false)
        ∧ ((sampleView false [sampleEmptyCategory]).feedUpdateLocked = false →
            (sampleView false [sampleEmptyCategory]).currentIndexValid = true →
            l = [ViewEvent.tryLock true,
                 ViewEvent.showGuiMessage GuiMessage.cannotDeleteUnsupported,
                 ViewEvent.unlock]))
    ∧ (∃ l : List ViewEvent,
        (sampleView false [sampleEmptyCategory]).editSelectedItem (sampleGui StandardButton.Yes)
          = Outcome.returned
              { sampleView false [sampleEmptyCategory] with
                log := (sampleView false [sampleEmptyCategory]).log ++ l }
        ∧ (∀ e ∈ l, e.isConfirmOrItemCall = false)
        ∧ ((sampleView false [sampleEmptyCategory]).feedUpdateLocked = false →
            l = [ViewEvent.tryLock true,
                 ViewEvent.showGuiMessage GuiMessage.cannotEditUnsupported,
                 ViewEvent.unlock])) :=
  ⟨(unsupported_operation_changes_nothing (sampleView false [sampleEmptyCategory])
      (sampleGui StandardButton.Yes) sampleEmptyCategory rfl).1 rfl,
   (unsupported_operation_changes_nothing (sampleView false [sampleEmptyCategory])
      (sampleGui StandardButton.Yes) sampleEmptyCategory rfl).2 rfl⟩

/-! Lemmas about the settings store and the expand states -/

/-- Dropping the entries of another key does not change what is saved under
`key`. -/
theorem Settings.lookup_filter_ne (key other : String) (h : other ≠ key)
    (l : List (String × Bool)) :
    Settings.lookup key (l.filter (fun e => decide (e.1 ≠ other))) = Settings.lookup key l := by
  induction l with
  | nil => rfl
  | cons e rest ih =>
      obtain ⟨k, b⟩ := e
      by_cases hk : k = other
      · subst hk
        simpa [Settings.lookup, h] using ih
      · by_cases hk2 : k = key
        · subst hk2
          simp [Settings.lookup, hk]
        · simpa [Settings.lookup, hk, hk2] using ih

/-- Reading a key after a write: the written value under the written key, the
old value under every other key. -/
theorem Settings.lookup_setValue (s : Settings) (key other : String) (b : Bool) :
    Settings.lookup key (s.setValue other b).CategoriesExpandStates
      = if other = key then some b else Settings.lookup key s.CategoriesExpandStates := by
  by_cases h : other = key
  · simp [Settings.setValue, Settings.lookup, h]
  · have hf := Settings.lookup_filter_ne key other h s.CategoriesExpandStates
    simpa [Settings.setValue, Settings.lookup, h] using hf

/-- Reading the expanded flag after `setExpanded`: the given flag at the given
index, the old flag at every other index. -/
theorem FeedsView.isExpanded_setExpanded (v : FeedsView) (index other : Nat) (e : Bool) :
    (v.setExpanded other e).isExpanded index
      = if index = other then e else v.isExpanded index := by
  by_cases h : index = other
  · subst h
    cases e
    · simp [FeedsView.setExpanded, FeedsView.isExpanded, FeedsView.emit, List.mem_filter]
    · by_cases hm : index ∈ v.expandedIndexes <;>
        simp [FeedsView.setExpanded, FeedsView.isExpanded, FeedsView.emit, hm]
  · cases e
    · simp [FeedsView.setExpanded, FeedsView.isExpanded, FeedsView.emit, List.mem_filter, h]
    · by_cases hm : other ∈ v.expandedIndexes <;>
        simp [FeedsView.setExpanded, FeedsView.isExpanded, FeedsView.emit, hm, h]

/-- The saving loop over `items`, as `saveExpandStates` runs it. -/
theorem FeedsView.saveExpandStates_eq (v : FeedsView) (item : RootItem) :
    v.saveExpandStates item
      = (item.getSubTree RootItemKind.isCategoryOrServiceRoot).foldl
          (fun (v : FeedsView) (item : RootItem) =>
            { v with settings := v.settings.setValue item.hashCode (v.isExpanded item.addr) })
          v := rfl

/-- The saving loop does not touch the expanded indexes. -/
theorem FeedsView.save_loop_expanded (items : List RootItem) (v : FeedsView) :
    (items.foldl
        (fun (v : FeedsView) (item : RootItem) =>
          { v with settings := v.settings.setValue item.hashCode (v.isExpanded item.addr) })
        v).expandedIndexes = v.expandedIndexes := by
  induction items generalizing v with
  | nil => rfl
  | cons x rest ih => simp only [List.foldl_cons, ih]

/-- The saving loop leaves alone the keys that are the hash code of no item. -/
theorem FeedsView.save_loop_lookup_other (key : String) (items : List RootItem)
    (v : FeedsView) (h : ∀ it ∈ items, it.hashCode ≠ key) :
    Settings.lookup key
        (items.foldl
          (fun (v : FeedsView) (item : RootItem) =>
            { v with settings := v.settings.setValue item.hashCode (v.isExpanded item.addr) })
          v).settings.CategoriesExpandStates
      = Settings.lookup key v.settings.CategoriesExpandStates := by
  induction items generalizing v with
  | nil => rfl
  | cons x rest ih =>
      have hx : x.hashCode ≠ key := h x (List.mem_cons_self _ _)
      have hrest : ∀ it ∈ rest, it.hashCode ≠ key :=
        fun it hit => h it (List.mem_cons_of_mem _ hit)
      simp only [List.foldl_cons]
      rw [ih _ hrest]
      simp [Settings.lookup_setValue, hx]

/-- The saving loop saves, under the hash code of an item, the expanded flag of
that item, provided the items with that hash code are one object. -/
theorem FeedsView.save_loop_lookup (key : String) (a : Nat) (items : List RootItem)
    (v : FeedsView) (hone : ∀ it ∈ items, it.hashCode = key → it.addr = a)
    (hex : ∃ it ∈ items, it.hashCode = key) :
    Settings.lookup key
        (items.foldl
          (fun (v : FeedsView) (item : RootItem) =>
            { v with settings := v.settings.setValue item.hashCode (v.isExpanded item.addr) })
          v).settings.CategoriesExpandStates
      = some (v.isExpanded a) := by
  induction items generalizing v with
  | nil =>
      obtain ⟨it, hit, _⟩ := hex
      cases hit
  | cons x rest ih =>
      have hrest : ∀ it ∈ rest, it.hashCode = key → it.addr = a :=
        fun it hit => hone it (List.mem_cons_of_mem _ hit)
      simp only [List.foldl_cons]
      by_cases hlater : ∃ it ∈ rest, it.hashCode = key
      · rw [ih _ hrest hlater]
        rfl
      · have hno : ∀ it ∈ rest, it.hashCode ≠ key := by
          intro it hit hk
          exact hlater ⟨it, hit, hk⟩
        rw [FeedsView.save_loop_lookup_other key rest _ hno]
        have hxk : x.hashCode = key := by
          obtain ⟨it, hit, hk⟩ := hex
          rcases List.mem_cons.mp hit with rfl | hin
          · exact hk
          · exact absurd hk (hno it hin)
        have hxa : x.addr = a := hone x (List.mem_cons_self _ _) hxk
        simp [Settings.lookup_setValue, hxk, hxa]

/-- The loading loop does not touch the settings. -/
theorem FeedsView.load_loop_settings (items : List RootItem) (v : FeedsView) :
    (v.loadExpandStatesOf items).settings = v.settings := by
  unfold FeedsView.loadExpandStatesOf
  induction items generalizing v with
  | nil => rfl
  | cons x rest ih =>
      simp only [List.foldl_cons]
      rw [ih]
      rfl

/-- The events of the loading loop: one `setExpanded` per item, in order, with
the saved value or the default. -/
theorem FeedsView.load_loop_log (items : List RootItem) (v : FeedsView) :
    (v.loadExpandStatesOf items).log
      = v.log ++ items.map (fun item =>
          ViewEvent.setExpanded item.addr
            (v.settings.value item.hashCode (decide (item.childCount > 0)))) := by
  unfold FeedsView.loadExpandStatesOf
  induction items generalizing v with
  | nil => simp
  | cons x rest ih =>
      simp only [List.foldl_cons]
      rw [ih]
      simp [FeedsView.setExpanded, FeedsView.emit]

/-- The loading loop leaves alone the indexes that are the address of no
item. -/
theorem FeedsView.load_loop_isExpanded_other (a : Nat) (items : List RootItem)
    (v : FeedsView) (h : ∀ it ∈ items, it.addr ≠ a) :
    (v.loadExpandStatesOf items).isExpanded a = v.isExpanded a := by
  unfold FeedsView.loadExpandStatesOf
  induction items generalizing v with
  | nil => rfl
  | cons x rest ih =>
      have hx : a ≠ x.addr := fun e => h x (List.mem_cons_self _ _) e.symm
      have hrest : ∀ it ∈ rest, it.addr ≠ a :=
        fun it hit => h it (List.mem_cons_of_mem _ hit)
      simp only [List.foldl_cons]
      rw [ih _ hrest, FeedsView.isExpanded_setExpanded]
      simp [hx]

/-- The loading loop gives an item the saved value or the default, provided
the items at its address agree on that value. -/
theorem FeedsView.load_loop_isExpanded (a : Nat) (flag : Bool) (items : List RootItem)
    (v : FeedsView)
    (hone : ∀ it ∈ items, it.addr = a →
      v.settings.value it.hashCode (decide (it.childCount > 0)) = flag)
    (hex : ∃ it ∈ items, it.addr = a) :
    (v.loadExpandStatesOf items).isExpanded a = flag := by
  induction items generalizing v with
  | nil =>
      obtain ⟨it, hit, _⟩ := hex
      cases hit
  | cons x rest ih =>
      have hstep : v.loadExpandStatesOf (x :: rest)
          = (v.setExpanded x.addr
              (v.settings.value x.hashCode (decide (x.childCount > 0)))).loadExpandStatesOf
              rest := rfl
      have hset : (v.setExpanded x.addr
          (v.settings.value x.hashCode (decide (x.childCount > 0)))).settings = v.settings := rfl
      rw [hstep]
      by_cases hlater : ∃ it ∈ rest, it.addr = a
      · apply ih _ _ hlater
        intro it hit ha
        rw [hset]
        exact hone it (List.mem_cons_of_mem _ hit) ha
      · have hno : ∀ it ∈ rest, it.addr ≠ a := by
          intro it hit hk
          exact hlater ⟨it, hit, hk⟩
        rw [FeedsView.load_loop_isExpanded_other a rest _ hno,
          FeedsView.isExpanded_setExpanded]
        have hxa : x.addr = a := by
          obtain ⟨it, hit, hk⟩ := hex
          rcases List.mem_cons.mp hit with rfl | hin
          · exact hk
          · exact absurd hk (hno it hin)
        simp [hxa.symm, hone x (List.mem_cons_self _ _) hxa]

/-- Sorting does not touch the expanded indexes. -/
theorem FeedsView.isExpanded_sortByColumn (v : FeedsView) (column order : Int) (a : Nat) :
    (v.sortByColumn column order).isExpanded a = v.isExpanded a := by
  unfold FeedsView.sortByColumn
  by_cases h : column = v.sortIndicatorSection ∧ order = v.sortIndicatorOrder
  · simp [h, FeedsView.isExpanded, FeedsView.emit]
  · simp [h, FeedsView.isExpanded, FeedsView.emit, FeedsView.saveSortState]

/-- The events of `sortByColumn`: exactly one sort call. -/
theorem FeedsView.log_sortByColumn (v : FeedsView) (column order : Int) :
    ∃ ev : ViewEvent, ev.isSort = true ∧ (v.sortByColumn column order).log = v.log ++ [ev] := by
  unfold FeedsView.sortByColumn
  by_cases h : column = v.sortIndicatorSection ∧ order = v.sortIndicatorOrder
  · exact ⟨ViewEvent.proxySort column order, rfl, by simp [h, FeedsView.emit]⟩
  · exact ⟨ViewEvent.treeViewSortByColumn column order, rfl, by
      simp [h, FeedsView.emit, FeedsView.saveSortState]⟩

/-- The events of `loadAllExpandStates`: one `setExpanded` per expandable item,
in the order of the walk, and then one sort call. -/
theorem FeedsView.since_loadAllExpandStates (v : FeedsView) :
    ∃ ev : ViewEvent, ev.isSort = true
      ∧ v.since v.loadAllExpandStates
          = (v.rootItem.getSubTree RootItemKind.isCategoryOrServiceRoot).map (fun item =>
              ViewEvent.setExpanded item.addr
                (v.settings.value item.hashCode (decide (item.childCount > 0))))
            ++ [ev] := by
  obtain ⟨ev, hev, hlog⟩ := FeedsView.log_sortByColumn
    (v.loadExpandStatesOf (v.rootItem.getSubTree RootItemKind.isCategoryOrServiceRoot))
    (v.loadExpandStatesOf
      (v.rootItem.getSubTree RootItemKind.isCategoryOrServiceRoot)).settings.DefaultSortColumnFeeds
    (v.loadExpandStatesOf
      (v.rootItem.getSubTree RootItemKind.isCategoryOrServiceRoot)).settings.DefaultSortOrderFeeds
  refine ⟨ev, hev, ?_⟩
  apply FeedsView.since_of_view_log_eq
  unfold FeedsView.loadAllExpandStates
  simp only []
  rw [hlog, FeedsView.load_loop_log, List.append_assoc]

/-- C14: for every Category or ServiceRoot item of the tree,
`loadAllExpandStates` calls `setExpanded` on the index of the item with a flag
that is the value saved under the hash code of the item when there is one, and
otherwise is true exactly when the item has at least one child.  When the
entries of the walk at the address of the item are that one object, this flag
is also the expanded flag of the item after the load. -/
theorem loadAllExpandStates_saved_value_or_has_children (v : FeedsView) (item : RootItem)
    (hi : item ∈ v.rootItem.getSubTree RootItemKind.isCategoryOrServiceRoot) :
    ∃ flag : Bool,
      ViewEvent.setExpanded item.addr flag ∈ v.since v.loadAllExpandStates
      ∧ (∀ b : Bool,
          Settings.lookup item.hashCode v.settings.CategoriesExpandStates = some b → flag = b)
      ∧ (Settings.lookup item.hashCode v.settings.CategoriesExpandStates = none →
          (flag = true ↔ 0 < item.childCount))
      ∧ ((∀ other ∈ v.rootItem.getSubTree RootItemKind.isCategoryOrServiceRoot,
            other.addr = item.addr →
              other.hashCode = item.hashCode ∧ other.childCount = item.childCount) →
          v.loadAllExpandStates.isExpanded item.addr = flag) := by
  refine ⟨v.settings.value item.hashCode (decide (item.childCount > 0)), ?_, ?_, ?_, ?_⟩
  · obtain ⟨ev, _, hlog⟩ := FeedsView.since_loadAllExpandStates v
    rw [hlog]
    apply List.mem_append_left
    exact List.mem_map.mpr ⟨item, hi, rfl⟩
  · intro b hb
    simp [Settings.value, hb]
  · intro hnone
    simp [Settings.value, hnone]
  · intro hobj
    unfold FeedsView.loadAllExpandStates
    simp only []
    rw [FeedsView.isExpanded_sortByColumn]
    apply FeedsView.load_loop_isExpanded
    · intro other hother ha
      obtain ⟨h1, h2⟩ := hobj other hother ha
      rw [h1, h2]
    · exact ⟨item, hi, rfl⟩

/-- C14 at a concrete input: the empty category of the sample tree, with
nothing saved, is collapsed by the load. -/
theorem loadAllExpandStates_saved_value_or_has_children_witness :
    ∃ flag : Bool,
      ViewEvent.setExpanded 4 flag
        ∈ (sampleView false []).since (sampleView false []).loadAllExpandStates
      ∧ (∀ b : Bool, Settings.lookup "empty" [] = some b → flag = b)
      ∧ (Settings.lookup "empty" [] = none → (flag = true ↔ 0 < sampleEmptyCategory.childCount))
      ∧ ((∀ other ∈ sampleTree.getSubTree RootItemKind.isCategoryOrServiceRoot,
            other.addr = 4 →
              other.hashCode = "empty" ∧ other.childCount = sampleEmptyCategory.childCount) →
          (sampleView false []).loadAllExpandStates.isExpanded 4 = flag) :=
  loadAllExpandStates_saved_value_or_has_children (sampleView false []) sampleEmptyCategory
    (List.Mem.tail _ (List.Mem.tail _ (List.Mem.head _)))

/-- C15 as stated fails: on the sample view the load calls `setExpanded` three
times and only then sorts; the sort call is the last event, not the first. -/
theorem loadAllExpandStates_sorts_last_on_sample :
    (sampleView false []).since (sampleView false []).loadAllExpandStates
      = [ViewEvent.setExpanded 1 true, ViewEvent.setExpanded 2 true,
         ViewEvent.setExpanded 4 false, ViewEvent.treeViewSortByColumn 0 1] := by
  decide

/-- C15 amended: in `loadAllExpandStates` the persisted sort state is restored
after the expansion states are applied: the events of a load are the
`setExpanded` calls, one per expandable item, followed by the one sort call of
`sortByColumn`, so the sort follows every `setExpanded` call of that load. -/
theorem loadAllExpandStates_sorts_after_expanding (v : FeedsView) :
    ∃ (pre : List ViewEvent) (ev : ViewEvent),
      v.since v.loadAllExpandStates = pre ++ [ev]
      ∧ ev.isSort = true
      ∧ (∀ e ∈ pre, e.isSetExpanded = true)
      ∧ pre.length = (v.rootItem.getSubTree RootItemKind.isCategoryOrServiceRoot).length := by
  obtain ⟨ev, hev, hlog⟩ := FeedsView.since_loadAllExpandStates v
  refine ⟨_, ev, hlog, hev, ?_, by simp⟩
  intro e he
  obtain ⟨item, _, rfl⟩ := List.mem_map.mp he
  rfl

/-- C16: round trip of the expansion state.  Let `saved` be a view whose
Category and ServiceRoot items have pairwise distinct hash codes (two entries
with the same hash code are the same object), and let `reloaded` be any view,
on a tree rebuilt from other objects, that starts from the settings
`saveAllExpandStates` left.  After `loadAllExpandStates` every Category or
ServiceRoot item of the reloaded tree has the expanded flag that the item with
the same hash code had in the saved view. -/
theorem expand_states_round_trip (saved reloaded : FeedsView)
    (hsettings : reloaded.settings = saved.saveAllExpandStates.settings)
    (hdistinct : ∀ a ∈ saved.rootItem.getSubTree RootItemKind.isCategoryOrServiceRoot,
      ∀ b ∈ saved.rootItem.getSubTree RootItemKind.isCategoryOrServiceRoot,
        a.hashCode = b.hashCode → a.addr = b.addr)
    (hobject : ∀ a ∈ reloaded.rootItem.getSubTree RootItemKind.isCategoryOrServiceRoot,
      ∀ b ∈ reloaded.rootItem.getSubTree RootItemKind.isCategoryOrServiceRoot,
        a.addr = b.addr → a.hashCode = b.hashCode) :
    ∀ old ∈ saved.rootItem.getSubTree RootItemKind.isCategoryOrServiceRoot,
      ∀ new ∈ reloaded.rootItem.getSubTree RootItemKind.isCategoryOrServiceRoot,
        old.hashCode = new.hashCode →
          reloaded.loadAllExpandStates.isExpanded new.addr = saved.isExpanded old.addr := by
  intro old hold new hnew hhash
  have hsaved : Settings.lookup new.hashCode reloaded.settings.CategoriesExpandStates
      = some (saved.isExpanded old.addr) := by
    rw [hsettings]
    unfold FeedsView.saveAllExpandStates
    rw [FeedsView.saveExpandStates_eq]
    apply FeedsView.save_loop_lookup
    · intro it hit hk
      exact hdistinct it hit old hold (hk.trans hhash.symm)
    · exact ⟨old, hold, hhash⟩
  unfold FeedsView.loadAllExpandStates
  simp only []
  rw [FeedsView.isExpanded_sortByColumn]
  apply FeedsView.load_loop_isExpanded
  · intro it hit ha
    have hk : it.hashCode = new.hashCode := hobject it hit new hnew ha
    rw [hk]
    simp [Settings.value, hsaved]
  · exact ⟨new, hnew, rfl⟩

/-- C16 at a concrete input: the sample view, where only the account (object
1) is expanded, is saved; after the load on the rebuilt tree the account
(object 101) is expanded and the category "news" (object 102) is not. -/
theorem expand_states_round_trip_witness :
    sampleViewReloaded.loadAllExpandStates.isExpanded 101 = (sampleView false []).isExpanded 1
    ∧ sampleViewReloaded.loadAllExpandStates.isExpanded 102 = (sampleView false []).isExpanded 2
    ∧ (sampleView false []).isExpanded 1 = true
    ∧ (sampleView false []).isExpanded 2 = false :=
  have hd : ∀ a ∈ (sampleView false []).rootItem.getSubTree RootItemKind.isCategoryOrServiceRoot,
      ∀ b ∈ (sampleView false []).rootItem.getSubTree RootItemKind.isCategoryOrServiceRoot,
        a.hashCode = b.hashCode → a.addr = b.addr := by
    intro a ha b hb
    simp [sampleView, sampleTree, RootItem.getSubTree, RootItem.getSubTreeOfList,
      RootItemKind.isCategoryOrServiceRoot] at ha hb
    rcases ha with rfl | rfl | rfl <;> rcases hb with rfl | rfl | rfl <;> simp
  have ho : ∀ a ∈ sampleViewReloaded.rootItem.getSubTree RootItemKind.isCategoryOrServiceRoot,
      ∀ b ∈ sampleViewReloaded.rootItem.getSubTree RootItemKind.isCategoryOrServiceRoot,
        a.addr = b.addr → a.hashCode = b.hashCode := by
    intro a ha b hb
    simp [sampleViewReloaded, sampleTreeRebuilt, RootItem.getSubTree,
      RootItem.getSubTreeOfList, RootItemKind.isCategoryOrServiceRoot] at ha hb
    rcases ha with rfl | rfl | rfl <;> rcases hb with rfl | rfl | rfl <;> simp
  ⟨expand_states_round_trip (sampleView false []) sampleViewReloaded rfl hd ho
      _ (List.Mem.head _) _ (List.Mem.head _) rfl,
   expand_states_round_trip (sampleView false []) sampleViewReloaded rfl hd ho
      _ (List.Mem.tail _ (List.Mem.head _)) _ (List.Mem.tail _ (List.Mem.head _)) rfl,
   by decide, by decide⟩

/-- C17: `selectedItem` returns null when no row is selected and when the
first selected row maps to the root item of the model; otherwise it returns the
item of the first selected row.  So whatever it returns is the item of the first
selected row and is not the root item. -/
theorem selectedItem_first_row_unless_root (v : FeedsView) :
    (v.selectedRows = [] → v.selectedItem = none)
    ∧ (∀ (first : RootItem) (rest : List RootItem), v.selectedRows = first :: rest →
        first.addr = v.rootItem.addr → v.selectedItem = none)
    ∧ (∀ (first : RootItem) (rest : List RootItem), v.selectedRows = first :: rest →
        first.addr ≠ v.rootItem.addr → v.selectedItem = some first)
    ∧ (∀ item : RootItem, v.selectedItem = some item →
        item.addr ≠ v.rootItem.addr ∧ v.selectedRows.head? = some item) := by
  refine ⟨?_, ?_, ?_, ?_⟩
  · intro h
    simp [FeedsView.selectedItem, h]
  · intro first rest h hroot
    simp [FeedsView.selectedItem, h, hroot]
  · intro first rest h hroot
    simp [FeedsView.selectedItem, h, hroot]
  · intro item h
    unfold FeedsView.selectedItem at h
    cases hrows : v.selectedRows with
    | nil => simp [hrows] at h
    | cons first rest =>
        simp only [hrows] at h
        by_cases hroot : first.addr = v.rootItem.addr
        · simp [hroot] at h
        · simp only [hroot, if_false, Option.some.injEq] at h
          subst h
          exact ⟨hroot, rfl⟩

/-- C17 at concrete inputs on the sample tree: nothing selected, the root
selected, and the account selected before another row. -/
theorem selectedItem_first_row_unless_root_witness :
    (sampleView false []).selectedItem = none
    ∧ (sampleView false [sampleTree]).selectedItem = none
    ∧ (sampleView false [sampleAccount, sampleEmptyCategory]).selectedItem = some sampleAccount :=
  ⟨(selectedItem_first_row_unless_root (sampleView false [])).1 rfl,
   (selectedItem_first_row_unless_root (sampleView false [sampleTree])).2.1
      sampleTree [] rfl rfl,
   (selectedItem_first_row_unless_root
      (sampleView false [sampleAccount, sampleEmptyCategory])).2.2.1
      sampleAccount [sampleEmptyCategory] rfl (by decide)⟩

/-! Theorems about `ServiceRoot::undeletedMessages` -/

/-- The loop of `undeletedMessages` appends, for each row in order, the
message twice when the row decoded and once when it did not. -/
theorem ServiceRoot.undeletedMessagesLoop_eq {M : Type} (fromSqlRecord : MessageRow → M × Bool)
    (rows : List MessageRow) (messages : List M) :
    ServiceRoot.undeletedMessagesLoop fromSqlRecord messages rows
      = messages ++ rows.flatMap (fun r =>
          if (fromSqlRecord r).2 then [(fromSqlRecord r).1, (fromSqlRecord r).1]
          else [(fromSqlRecord r).1]) := by
  induction rows generalizing messages with
  | nil => simp [ServiceRoot.undeletedMessagesLoop]
  | cons r rest ih =>
      simp only [ServiceRoot.undeletedMessagesLoop, List.flatMap_cons]
      rw [ih]
      cases (fromSqlRecord r).2 <;> simp

/-- C18 as stated fails: in a store with two undeleted rows of account 1, the
second of which does not decode, `undeletedMessages` returns three entries, not
four, and the message of the second row occurs once. -/
theorem undeletedMessages_undecoded_row_once :
    (sampleTablesShortRow.selectUndeleted 1).length = 2
    ∧ ServiceRoot.undeletedMessages ⟨1⟩ sampleDecoder true sampleTablesShortRow
        = [[10], [10], []] := by
  decide

/-- C18 amended: `undeletedMessages` appends, for every row returned by the
query (`is_deleted = 0`, `is_pdeleted = 0`, `account_id` of this account) and in
the order of the rows, the message built from that row twice when the row
decoded and once when it did not.  So the list has twice as many entries as
there are decoded rows plus one entry per row that did not decode; when every
row decodes it has exactly twice as many entries as there are rows.  When the
query fails the list is empty. -/
theorem undeletedMessages_twice_per_decoded_row {M : Type} (self : ServiceRoot)
    (fromSqlRecord : MessageRow → M × Bool) (t : Tables) :
    ServiceRoot.undeletedMessages self fromSqlRecord true t
      = (t.selectUndeleted self.accountId).flatMap (fun r =>
          if (fromSqlRecord r).2 then [(fromSqlRecord r).1, (fromSqlRecord r).1]
          else [(fromSqlRecord r).1])
    ∧ (ServiceRoot.undeletedMessages self fromSqlRecord true t).length
      = 2 * ((t.selectUndeleted self.accountId).filter (fun r => (fromSqlRecord r).2)).length
        + ((t.selectUndeleted self.accountId).filter (fun r => !(fromSqlRecord r).2)).length
    ∧ ((∀ r ∈ t.selectUndeleted self.accountId, (fromSqlRecord r).2 = true) →
        (ServiceRoot.undeletedMessages self fromSqlRecord true t).length
          = 2 * (t.selectUndeleted self.accountId).length)
    ∧ (∀ r : MessageRow, r ∈ t.selectUndeleted self.accountId ↔
        (r ∈ t.Messages ∧ r.is_deleted = 0 ∧ r.is_pdeleted = 0
          ∧ r.account_id = self.accountId))
    ∧ ServiceRoot.undeletedMessages self fromSqlRecord false t = [] := by
  have heq : ServiceRoot.undeletedMessages self fromSqlRecord true t
      = (t.selectUndeleted self.accountId).flatMap (fun r =>
          if (fromSqlRecord r).2 then [(fromSqlRecord r).1, (fromSqlRecord r).1]
          else [(fromSqlRecord r).1]) := by
    simp [ServiceRoot.undeletedMessages, ServiceRoot.undeletedMessagesLoop_eq]
  have hlen : ∀ rows : List MessageRow,
      (rows.flatMap (fun r =>
          if (fromSqlRecord r).2 then [(fromSqlRecord r).1, (fromSqlRecord r).1]
          else [(fromSqlRecord r).1])).length
        = 2 * (rows.filter (fun r => (fromSqlRecord r).2)).length
          + (rows.filter (fun r => !(fromSqlRecord r).2)).length := by
    intro rows
    induction rows with
    | nil => rfl
    | cons r rest ih =>
        simp only [List.flatMap_cons, List.length_append, ih, List.filter_cons]
        cases (fromSqlRecord r).2 <;> simp <;> omega
  have hall : ∀ rows : List MessageRow, (∀ r ∈ rows, (fromSqlRecord r).2 = true) →
      (rows.filter (fun r => (fromSqlRecord r).2)).length = rows.length
      ∧ (rows.filter (fun r => !(fromSqlRecord r).2)).length = 0 := by
    intro rows
    induction rows with
    | nil => intro _; exact ⟨rfl, rfl⟩
    | cons r rest ih =>
        intro h
        have hr := h r (List.mem_cons_self _ _)
        obtain ⟨h1, h2⟩ := ih (fun x hx => h x (List.mem_cons_of_mem _ hx))
        simp [List.filter_cons, hr, h1, h2]
  refine ⟨heq, ?_, ?_, ?_, ?_⟩
  · rw [heq, hlen]
  · intro h
    obtain ⟨h1, h2⟩ := hall _ h
    rw [heq, hlen, h1, h2]
    omega
  · intro r
    simp [Tables.selectUndeleted, List.mem_filter]
  · simp [ServiceRoot.undeletedMessages]

/-- C18 amended, at a concrete input: on the sample store (where every row
decodes) the root of account 1 has two undeleted rows and gets four entries. -/
theorem undeletedMessages_twice_per_decoded_row_witness :
    (ServiceRoot.undeletedMessages ⟨1⟩ sampleDecoder true sampleTables).length
      = 2 * (sampleTables.selectUndeleted (ServiceRoot.mk 1).accountId).length
    ∧ ServiceRoot.undeletedMessages ⟨1⟩ sampleDecoder true sampleTables
      = [[10], [10], [14], [14]] :=
  ⟨(undeletedMessages_twice_per_decoded_row ⟨1⟩ sampleDecoder sampleTables).2.2.1
      (by decide),
   by decide⟩

/-! Theorems about `ServiceRoot::assembleFeeds` -/

/-- The `appendChild` calls of the loop of `assembleFeeds`, from any log so
far: one per feed that has a target, in the order of the feeds. -/
theorem ServiceRoot.assembleFeeds_loop_appended (self : RootItem) (NO_PARENT_CATEGORY : Int)
    (categories : QHash) (feeds : List (Int × RootItem)) (log : List TreeEvent) :
    (feeds.foldl
        (fun log feed =>
          if feed.1 = NO_PARENT_CATEGORY then
            log ++ [TreeEvent.appendChild self.addr feed.2.addr,
                    TreeEvent.updateCounts feed.2.addr true]
          else
            match QHash.value feed.1 categories with
            | some category =>
                log ++ [TreeEvent.appendChild category.addr feed.2.addr,
                        TreeEvent.updateCounts feed.2.addr true]
            | none => log ++ [TreeEvent.qWarning])
        log).filterMap TreeEvent.appended
      = log.filterMap TreeEvent.appended
        ++ feeds.filterMap (ServiceRoot.feedTarget self NO_PARENT_CATEGORY categories) := by
  induction feeds generalizing log with
  | nil => simp
  | cons f rest ih =>
      simp only [List.foldl_cons]
      rw [ih]
      by_cases hroot : f.1 = NO_PARENT_CATEGORY
      · simp [hroot, ServiceRoot.feedTarget, TreeEvent.appended, List.filterMap_append,
          List.filterMap_cons]
      · cases hv : QHash.value f.1 categories with
        | none =>
            simp [hroot, hv, ServiceRoot.feedTarget, TreeEvent.appended, List.filterMap_append,
              List.filterMap_cons]
        | some category =>
            simp [hroot, hv, ServiceRoot.feedTarget, TreeEvent.appended, List.filterMap_append,
              List.filterMap_cons]

/-- The `appendChild` calls of `assembleFeeds`. -/
theorem ServiceRoot.assembleFeeds_appended (self : RootItem) (NO_PARENT_CATEGORY : Int)
    (categories : QHash) (feeds : List (Int × RootItem)) :
    (ServiceRoot.assembleFeeds self NO_PARENT_CATEGORY categories feeds).filterMap
        TreeEvent.appended
      = feeds.filterMap (ServiceRoot.feedTarget self NO_PARENT_CATEGORY categories) := by
  unfold ServiceRoot.assembleFeeds
  rw [ServiceRoot.assembleFeeds_loop_appended]
  simp

/-- The child of a target is the feed itself. -/
theorem ServiceRoot.feedTarget_child (self : RootItem) (NO_PARENT_CATEGORY : Int)
    (categories : QHash) (feed : Int × RootItem) (pc : Nat × Nat)
    (h : ServiceRoot.feedTarget self NO_PARENT_CATEGORY categories feed = some pc) :
    pc.2 = feed.2.addr := by
  unfold ServiceRoot.feedTarget at h
  by_cases hroot : feed.1 = NO_PARENT_CATEGORY
  · simp [hroot] at h
    rw [← h]
  · cases hv : QHash.value feed.1 categories with
    | none => simp [hroot, hv] at h
    | some category =>
        simp [hroot, hv] at h
        rw [← h]

/-- The children of the targets of a list of feeds are, in order, a sublist
of the feeds. -/
theorem ServiceRoot.feedTarget_children_sublist (self : RootItem) (NO_PARENT_CATEGORY : Int)
    (categories : QHash) (feeds : List (Int × RootItem)) :
    ((feeds.filterMap (ServiceRoot.feedTarget self NO_PARENT_CATEGORY categories)).map
        (fun pc => pc.2)).Sublist (feeds.map (fun f => f.2.addr)) := by
  induction feeds with
  | nil => simp
  | cons f rest ih =>
      cases ht : ServiceRoot.feedTarget self NO_PARENT_CATEGORY categories f with
      | none =>
          simp only [List.filterMap_cons, ht, List.map_cons]
          exact List.Sublist.cons _ ih
      | some pc =>
          have hc := ServiceRoot.feedTarget_child self NO_PARENT_CATEGORY categories f pc ht
          simp only [List.filterMap_cons, ht, List.map_cons, hc]
          exact List.Sublist.cons₂ _ ih

/-- C19 as stated fails: a feed object (address 10) listed twice, once without
parent category and once under category 5, is appended to two parents, the
service root (address 1) and the category (address 2); and a feed object
(address 12) listed as loose and as top-level is appended although one of its
entries is loose. -/
theorem assembleFeeds_feed_listed_twice_gets_two_parents :
    (ServiceRoot.assembleFeeds (sampleLeaf 1 .ServiceRoot 1) (-1)
        [(5, sampleLeaf 2 .Category 5)]
        [(-1, sampleLeaf 10 .Feed 100), (5, sampleLeaf 10 .Feed 100)]).filterMap
          TreeEvent.appended
      = [(1, 10), (2, 10)]
    ∧ (ServiceRoot.assembleFeeds (sampleLeaf 1 .ServiceRoot 1) (-1)
        [(5, sampleLeaf 2 .Category 5)]
        [(8, sampleLeaf 12 .Feed 102), (-1, sampleLeaf 12 .Feed 102)]).filterMap
          TreeEvent.appended
      = [(1, 12)] := by
  decide

/-- C19 amended: the `appendChild` calls of `assembleFeeds` are exactly, in
input order, one call per entry of the list that has a target: onto the
service root itself for a feed whose category id is `NO_PARENT_CATEGORY`, onto
the category the subtree holds under the category id of the feed otherwise, and
no call for a loose entry.  So every entry of the list is appended at most
once and the children appended to one parent keep their input order.  When the
feeds of the list are pairwise distinct objects, no feed is appended to two
parents and a loose feed is appended nowhere. -/
theorem assembleFeeds_appends_each_feed_to_its_parent (self : RootItem)
    (NO_PARENT_CATEGORY : Int) (categories : QHash) (feeds : List (Int × RootItem)) :
    (ServiceRoot.assembleFeeds self NO_PARENT_CATEGORY categories feeds).filterMap
        TreeEvent.appended
      = feeds.filterMap (ServiceRoot.feedTarget self NO_PARENT_CATEGORY categories)
    ∧ (∀ f ∈ feeds, f.1 = NO_PARENT_CATEGORY →
        (self.addr, f.2.addr)
          ∈ (ServiceRoot.assembleFeeds self NO_PARENT_CATEGORY categories feeds).filterMap
              TreeEvent.appended)
    ∧ (∀ f ∈ feeds, f.1 ≠ NO_PARENT_CATEGORY →
        ∀ category : RootItem, QHash.value f.1 categories = some category →
          (category.addr, f.2.addr)
            ∈ (ServiceRoot.assembleFeeds self NO_PARENT_CATEGORY categories feeds).filterMap
                TreeEvent.appended)
    ∧ ((ServiceRoot.assembleFeeds self NO_PARENT_CATEGORY categories feeds).filterMap
          TreeEvent.appended).length ≤ feeds.length
    ∧ (∀ parent : Nat,
        ((((ServiceRoot.assembleFeeds self NO_PARENT_CATEGORY categories feeds).filterMap
            TreeEvent.appended).filter (fun pc => decide (pc.1 = parent))).map
              (fun pc => pc.2)).Sublist (feeds.map (fun f => f.2.addr)))
    ∧ ((feeds.map (fun f => f.2.addr)).Nodup →
        (∀ (p1 p2 child : Nat),
          (p1, child)
            ∈ (ServiceRoot.assembleFeeds self NO_PARENT_CATEGORY categories feeds).filterMap
                TreeEvent.appended →
          (p2, child)
            ∈ (ServiceRoot.assembleFeeds self NO_PARENT_CATEGORY categories feeds).filterMap
                TreeEvent.appended →
          p1 = p2)
        ∧ (∀ f ∈ feeds, f.1 ≠ NO_PARENT_CATEGORY → QHash.value f.1 categories = none →
            ∀ parent : Nat,
              (parent, f.2.addr)
                ∉ (ServiceRoot.assembleFeeds self NO_PARENT_CATEGORY categories feeds).filterMap
                    TreeEvent.appended)) := by
  rw [ServiceRoot.assembleFeeds_appended]
  refine ⟨rfl, ?_, ?_, List.length_filterMap_le _ _, ?_, ?_⟩
  · intro f hf hroot
    exact List.mem_filterMap.mpr ⟨f, hf, by simp [ServiceRoot.feedTarget, hroot]⟩
  · intro f hf hroot category hv
    exact List.mem_filterMap.mpr ⟨f, hf, by simp [ServiceRoot.feedTarget, hroot, hv]⟩
  · intro parent
    exact ((List.filter_sublist _).map _).trans
      (ServiceRoot.feedTarget_children_sublist self NO_PARENT_CATEGORY categories feeds)
  · intro hnodup
    have hinj := List.inj_on_of_nodup_map hnodup
    constructor
    · intro p1 p2 child h1 h2
      obtain ⟨f1, hf1, ht1⟩ := List.mem_filterMap.mp h1
      obtain ⟨f2, hf2, ht2⟩ := List.mem_filterMap.mp h2
      have hc1 := ServiceRoot.feedTarget_child self NO_PARENT_CATEGORY categories f1 _ ht1
      have hc2 := ServiceRoot.feedTarget_child self NO_PARENT_CATEGORY categories f2 _ ht2
      have hsame : f1 = f2 := hinj hf1 hf2 (hc1.symm.trans hc2)
      subst hsame
      rw [ht1] at ht2
      simpa using ht2
    · intro f hf hroot hv parent hmem
      obtain ⟨f1, hf1, ht1⟩ := List.mem_filterMap.mp hmem
      have hc1 := ServiceRoot.feedTarget_child self NO_PARENT_CATEGORY categories f1 _ ht1
      have hsame : f1 = f := hinj hf1 hf hc1.symm
      subst hsame
      simp [ServiceRoot.feedTarget, hroot, hv] at ht1

/-- C19 amended, at a concrete input: a service root at address 1 with one category
(id 5, address 2) in its subtree, and three feeds: one top-level, one of
category 5 and one of the unknown category 8.  The constant
`NO_PARENT_CATEGORY` is taken as -1. -/
theorem assembleFeeds_appends_each_feed_to_its_parent_witness :
    ServiceRoot.assembleFeeds (sampleLeaf 1 .ServiceRoot 1) (-1)
        [(5, sampleLeaf 2 .Category 5)]
        [(-1, sampleLeaf 10 .Feed 100), (5, sampleLeaf 11 .Feed 101),
         (8, sampleLeaf 12 .Feed 102)]
      = [TreeEvent.appendChild 1 10, TreeEvent.updateCounts 10 true,
         TreeEvent.appendChild 2 11, TreeEvent.updateCounts 11 true,
         TreeEvent.qWarning]
    ∧ ∀ parent : Nat,
        (parent, (sampleLeaf 12 .Feed 102).addr)
          ∉ (ServiceRoot.assembleFeeds (sampleLeaf 1 .ServiceRoot 1) (-1)
              [(5, sampleLeaf 2 .Category 5)]
              [(-1, sampleLeaf 10 .Feed 100), (5, sampleLeaf 11 .Feed 101),
               (8, sampleLeaf 12 .Feed 102)]).filterMap TreeEvent.appended :=
  ⟨by decide,
   ((assembleFeeds_appends_each_feed_to_its_parent (sampleLeaf 1 .ServiceRoot 1) (-1)
      [(5, sampleLeaf 2 .Category 5)]
      [(-1, sampleLeaf 10 .Feed 100), (5, sampleLeaf 11 .Feed 101),
       (8, sampleLeaf 12 .Feed 102)]).2.2.2.2.2 (by decide)).2
      (8, sampleLeaf 12 .Feed 102)
      (List.Mem.tail _ (List.Mem.tail _ (List.Mem.head _))) (by decide) rfl⟩

/-! Theorems about `ServiceRoot::assembleCategories` -/

/-- The target the spec names for a category whose parent id is the id of a
category `d` of the list: the `appendChild` call onto `d`. -/
theorem ServiceRoot.categoryTarget_of_parent (self : RootItem) (NO_PARENT_CATEGORY : Int)
    (all : List (Int × RootItem))
    (hids : (all.map (fun c => c.2.id)).Nodup)
    (hnp : ∀ c ∈ all, c.2.id ≠ NO_PARENT_CATEGORY)
    (c d : Int × RootItem) (hd : d ∈ all) (hid : d.2.id = c.1) :
    ServiceRoot.categoryTarget self NO_PARENT_CATEGORY all c = some (d.2.addr, c.2.addr) := by
  have hroot : c.1 ≠ NO_PARENT_CATEGORY := by
    rw [← hid]
    exact hnp d hd
  unfold ServiceRoot.categoryTarget
  simp only [hroot, if_false]
  cases hfind : all.find? (fun x => decide (x.2.id = c.1)) with
  | none =>
      have hnone := List.find?_eq_none.mp hfind d hd
      simp [hid] at hnone
  | some x =>
      have hx : x ∈ all := List.mem_of_find?_eq_some hfind
      have hxid : x.2.id = c.1 := by
        have := List.find?_some hfind
        simpa using this
      have hsame : x = d := List.inj_on_of_nodup_map hids hx hd (hxid.trans hid.symm)
      simp [hsame]

/-- Under the invariant, the parent the code finds in `assignments` for an
entry is the parent the spec names for it. -/
theorem ServiceRoot.categoryTarget_of_value (self : RootItem) (NO_PARENT_CATEGORY : Int)
    (all done pending : List (Int × RootItem)) (assignments : QHash) (log : List TreeEvent)
    (hids : (all.map (fun c => c.2.id)).Nodup)
    (hnp : ∀ c ∈ all, c.2.id ≠ NO_PARENT_CATEGORY)
    (inv : ServiceRoot.AssembleInvariant self NO_PARENT_CATEGORY all done pending assignments log)
    (c : Int × RootItem) (parent : RootItem)
    (hv : QHash.value c.1 assignments = some parent) :
    ServiceRoot.categoryTarget self NO_PARENT_CATEGORY all c = some (parent.addr, c.2.addr) := by
  rcases inv.sound c.1 parent hv with ⟨hroot, haddr⟩ | ⟨d, hd, hid, haddr⟩
  · simp [ServiceRoot.categoryTarget, hroot, haddr]
  · have hdall : d ∈ all := (inv.perm.mem_iff).mp (List.mem_append_left _ hd)
    rw [ServiceRoot.categoryTarget_of_parent self NO_PARENT_CATEGORY all hids hnp c d hdall hid,
      haddr]

/-- The invariant is kept when an entry whose parent is found in
`assignments` is appended, inserted and removed from the pending list. -/
theorem ServiceRoot.AssembleInvariant.step (self : RootItem) (NO_PARENT_CATEGORY : Int)
    (all done kept rest : List (Int × RootItem)) (assignments : QHash) (log : List TreeEvent)
    (hids : (all.map (fun c => c.2.id)).Nodup)
    (hnp : ∀ c ∈ all, c.2.id ≠ NO_PARENT_CATEGORY)
    (c : Int × RootItem) (parent : RootItem)
    (inv : ServiceRoot.AssembleInvariant self NO_PARENT_CATEGORY all done (kept ++ c :: rest)
      assignments log)
    (hv : QHash.value c.1 assignments = some parent) :
    ServiceRoot.AssembleInvariant self NO_PARENT_CATEGORY all (done ++ [c]) (kept ++ rest)
      (QHash.insert c.2.id c.2 assignments)
      (log ++ [TreeEvent.appendChild parent.addr c.2.addr]) := by
  have htarget := ServiceRoot.categoryTarget_of_value self NO_PARENT_CATEGORY all done
    (kept ++ c :: rest) assignments log hids hnp inv c parent hv
  refine ⟨?_, ?_, ?_, ?_, ?_⟩
  · have h1 : (done ++ [c] ++ (kept ++ rest)).Perm (done ++ (kept ++ c :: rest)) := by
      simp only [List.append_assoc, List.singleton_append]
      exact List.Perm.append_left done List.perm_middle.symm
    exact h1.trans inv.perm
  · intro key item h
    by_cases hk : c.2.id = key
    · simp [QHash.insert, QHash.value, hk] at h
      exact Or.inr ⟨c, by simp, hk, by rw [h]⟩
    · simp [QHash.insert, QHash.value, hk] at h
      rcases inv.sound key item h with hroot | ⟨d, hd, hid, haddr⟩
      · exact Or.inl hroot
      · exact Or.inr ⟨d, List.mem_append_left _ hd, hid, haddr⟩
  · by_cases hk : c.2.id = NO_PARENT_CATEGORY
    · simp [QHash.insert, QHash.value, hk]
    · simp only [QHash.insert, QHash.value, hk, if_false]
      exact inv.root
  · intro d hd
    by_cases hk : c.2.id = d.2.id
    · simp [QHash.insert, QHash.value, hk]
    · simp only [QHash.insert, QHash.value, hk, if_false]
      rcases List.mem_append.mp hd with h | h
      · exact inv.complete d h
      · simp at h
        subst h
        exact absurd rfl hk
  · simp [List.map_append, List.filterMap_append, inv.appended, TreeEvent.appended, htarget]

/-- One run of the `for` loop keeps the invariant, never makes the pending
list longer, and makes it shorter when some entry it looks at has its parent
among the keys of `assignments`. -/
theorem ServiceRoot.assembleCategoriesFor_invariant (self : RootItem)
    (NO_PARENT_CATEGORY : Int) (all : List (Int × RootItem))
    (hids : (all.map (fun c => c.2.id)).Nodup)
    (hnp : ∀ c ∈ all, c.2.id ≠ NO_PARENT_CATEGORY)
    (suffix : List (Int × RootItem)) :
    ∀ (assignments : QHash) (log : List TreeEvent) (kept done : List (Int × RootItem)),
      ServiceRoot.AssembleInvariant self NO_PARENT_CATEGORY all done (kept ++ suffix)
        assignments log →
      ∃ done2 : List (Int × RootItem),
        ServiceRoot.AssembleInvariant self NO_PARENT_CATEGORY all done2
          (ServiceRoot.assembleCategoriesFor assignments log kept suffix).categories
          (ServiceRoot.assembleCategoriesFor assignments log kept suffix).assignments
          (ServiceRoot.assembleCategoriesFor assignments log kept suffix).log
        ∧ (ServiceRoot.assembleCategoriesFor assignments log kept suffix).categories.length
            ≤ (kept ++ suffix).length
        ∧ ((∃ e ∈ suffix, QHash.value e.1 assignments ≠ none) →
            (ServiceRoot.assembleCategoriesFor assignments log kept suffix).categories.length
              < (kept ++ suffix).length) := by
  induction suffix with
  | nil =>
      intro assignments log kept done inv
      refine ⟨done, ?_, ?_, ?_⟩
      · simpa [ServiceRoot.assembleCategoriesFor] using inv
      · simp [ServiceRoot.assembleCategoriesFor]
      · rintro ⟨e, he, _⟩
        cases he
  | cons c rest ih =>
      intro assignments log kept done inv
      cases hv : QHash.value c.1 assignments with
      | some parent =>
          have hstep : ServiceRoot.assembleCategoriesFor assignments log kept (c :: rest)
              = ServiceRoot.assembleCategoriesFor (QHash.insert c.2.id c.2 assignments)
                  (log ++ [TreeEvent.appendChild parent.addr c.2.addr]) kept rest := by
            simp [ServiceRoot.assembleCategoriesFor, hv]
          rw [hstep]
          have inv2 := ServiceRoot.AssembleInvariant.step self NO_PARENT_CATEGORY all done kept
            rest assignments log hids hnp c parent inv hv
          obtain ⟨done2, i2, hle, _⟩ := ih _ _ _ _ inv2
          refine ⟨done2, i2, ?_, ?_⟩
          · simp only [List.length_append, List.length_cons] at hle ⊢
            omega
          · intro _
            simp only [List.length_append, List.length_cons] at hle ⊢
            omega
      | none =>
          have hstep : ServiceRoot.assembleCategoriesFor assignments log kept (c :: rest)
              = ServiceRoot.assembleCategoriesFor assignments log (kept ++ [c]) rest := by
            simp [ServiceRoot.assembleCategoriesFor, hv]
          rw [hstep]
          have heq : kept ++ c :: rest = (kept ++ [c]) ++ rest := by simp
          rw [heq] at inv ⊢
          obtain ⟨done2, i2, hle, hlt⟩ := ih assignments log (kept ++ [c]) done inv
          refine ⟨done2, i2, hle, ?_⟩
          rintro ⟨x, hx, hxv⟩
          apply hlt
          rcases List.mem_cons.mp hx with rfl | hin
          · exact absurd hv hxv
          · exact ⟨x, hin, hxv⟩

/-- Under the invariant, when every chain of parent ids reaches
`NO_PARENT_CATEGORY`, a pending list that is not empty holds an entry whose
parent id is a key of `assignments`. -/
theorem ServiceRoot.AssembleInvariant.progress (self : RootItem) (NO_PARENT_CATEGORY : Int)
    (all done pending : List (Int × RootItem)) (assignments : QHash) (log : List TreeEvent)
    (hchain : ∀ c ∈ all, ServiceRoot.ReachesRoot NO_PARENT_CATEGORY all c.1)
    (inv : ServiceRoot.AssembleInvariant self NO_PARENT_CATEGORY all done pending
      assignments log)
    (hne : pending ≠ []) :
    ∃ e ∈ pending, QHash.value e.1 assignments ≠ none := by
  have haux : ∀ key : Int, ServiceRoot.ReachesRoot NO_PARENT_CATEGORY all key →
      QHash.value key assignments ≠ none
      ∨ ∃ e ∈ pending, QHash.value e.1 assignments ≠ none := by
    intro key hreach
    induction hreach with
    | root => exact Or.inl inv.root
    | step c hc _ ih =>
        rcases List.mem_append.mp ((inv.perm.mem_iff).mpr hc) with hdone | hpend
        · exact Or.inl (inv.complete c hdone)
        · rcases ih with h | h
          · exact Or.inr ⟨c, hpend, h⟩
          · exact Or.inr h
  cases pending with
  | nil => exact absurd rfl hne
  | cons c rest =>
      have hc : c ∈ all := (inv.perm.mem_iff).mp (List.mem_append_right _ (List.mem_cons_self _ _))
      rcases haux c.1 (hchain c hc) with h | h
      · exact ⟨c, List.mem_cons_self _ _, h⟩
      · exact h

/-- With nothing pending the `while` loop stops at once, whatever the fuel. -/
theorem ServiceRoot.assembleCategoriesWhile_of_empty (s : AssembleState)
    (h : s.categories = []) (fuel : Nat) :
    ServiceRoot.assembleCategoriesWhile fuel s = some s := by
  cases fuel <;> simp [ServiceRoot.assembleCategoriesWhile, h]

/-- From a state that satisfies the invariant and has at most `n` pending
entries, the `while` loop ends with every fuel of at least `n` passes, in one
and the same state with nothing pending. -/
theorem ServiceRoot.assembleCategoriesWhile_terminates (self : RootItem)
    (NO_PARENT_CATEGORY : Int) (all : List (Int × RootItem))
    (hids : (all.map (fun c => c.2.id)).Nodup)
    (hnp : ∀ c ∈ all, c.2.id ≠ NO_PARENT_CATEGORY)
    (hchain : ∀ c ∈ all, ServiceRoot.ReachesRoot NO_PARENT_CATEGORY all c.1)
    (n : Nat) :
    ∀ (s : AssembleState) (done : List (Int × RootItem)),
      ServiceRoot.AssembleInvariant self NO_PARENT_CATEGORY all done s.categories
        s.assignments s.log →
      s.categories.length ≤ n →
      ∃ (s2 : AssembleState) (done2 : List (Int × RootItem)),
        (∀ fuel : Nat, n ≤ fuel → ServiceRoot.assembleCategoriesWhile fuel s = some s2)
        ∧ s2.categories = []
        ∧ ServiceRoot.AssembleInvariant self NO_PARENT_CATEGORY all done2 [] s2.assignments
            s2.log := by
  induction n with
  | zero =>
      intro s done inv hlen
      have hnil : s.categories = [] := List.length_eq_zero.mp (Nat.le_zero.mp hlen)
      refine ⟨s, done, ?_, hnil, ?_⟩
      · intro fuel _
        exact ServiceRoot.assembleCategoriesWhile_of_empty s hnil fuel
      · rw [hnil] at inv
        exact inv
  | succ n ih =>
      intro s done inv hlen
      by_cases hnil : s.categories = []
      · refine ⟨s, done, ?_, hnil, ?_⟩
        · intro fuel _
          exact ServiceRoot.assembleCategoriesWhile_of_empty s hnil fuel
        · rw [hnil] at inv
          exact inv
      · have inv0 : ServiceRoot.AssembleInvariant self NO_PARENT_CATEGORY all done
            ([] ++ s.categories) s.assignments s.log := by
          simpa using inv
        obtain ⟨done1, inv1, _, hlt⟩ :=
          ServiceRoot.assembleCategoriesFor_invariant self NO_PARENT_CATEGORY all hids hnp
            s.categories s.assignments s.log [] done inv0
        have hprog := ServiceRoot.AssembleInvariant.progress self NO_PARENT_CATEGORY all done
          s.categories s.assignments s.log hchain inv hnil
        have hshorter := hlt hprog
        simp only [List.nil_append] at hshorter
        obtain ⟨s2, done2, hrun, hempty, inv2⟩ := ih _ done1 inv1 (by omega)
        refine ⟨s2, done2, ?_, hempty, inv2⟩
        intro fuel hfuel
        cases fuel with
        | zero => omega
        | succ f =>
            have hne : s.categories.isEmpty = false := by
              cases hc : s.categories with
              | nil => exact absurd hc hnil
              | cons _ _ => rfl
            simp only [ServiceRoot.assembleCategoriesWhile, hne]
            exact hrun f (by omega)

/-- C20: for a list of (parent id, category) pairs with pairwise distinct
category ids, none of them `NO_PARENT_CATEGORY`, in which the chain of parent
ids of every category reaches `NO_PARENT_CATEGORY` through categories of the
list, `assembleCategories` terminates: with any fuel of at least as many passes
as there are categories it ends in one and the same state, whose pending list
is empty.  Its `appendChild` calls are, up to order, exactly one call per
category: onto the service root when the parent id is `NO_PARENT_CATEGORY`, and
otherwise onto the category whose id equals the parent id. -/
theorem assembleCategories_terminates_with_all_appended (self : RootItem)
    (NO_PARENT_CATEGORY : Int) (categories : List (Int × RootItem))
    (hids : (categories.map (fun c => c.2.id)).Nodup)
    (hnp : ∀ c ∈ categories, c.2.id ≠ NO_PARENT_CATEGORY)
    (hchain : ∀ c ∈ categories,
      ServiceRoot.ReachesRoot NO_PARENT_CATEGORY categories c.1) :
    ∃ s : AssembleState,
      (∀ fuel : Nat, categories.length ≤ fuel →
        ServiceRoot.assembleCategories self NO_PARENT_CATEGORY categories fuel = some s)
      ∧ s.categories = []
      ∧ (s.log.filterMap TreeEvent.appended).Perm
          (categories.filterMap
            (ServiceRoot.categoryTarget self NO_PARENT_CATEGORY categories))
      ∧ (s.log.filterMap TreeEvent.appended).length = categories.length
      ∧ (∀ c ∈ categories, c.1 = NO_PARENT_CATEGORY →
          (self.addr, c.2.addr) ∈ s.log.filterMap TreeEvent.appended)
      ∧ (∀ c ∈ categories, ∀ d ∈ categories, d.2.id = c.1 →
          (d.2.addr, c.2.addr) ∈ s.log.filterMap TreeEvent.appended) := by
  have inv0 : ServiceRoot.AssembleInvariant self NO_PARENT_CATEGORY categories []
      categories (QHash.insert NO_PARENT_CATEGORY self []) [] := by
    refine ⟨by simp, ?_, ?_, ?_, by simp⟩
    · intro key item h
      by_cases hk : NO_PARENT_CATEGORY = key
      · simp [QHash.insert, QHash.value, hk] at h
        exact Or.inl ⟨hk.symm, by rw [h]⟩
      · simp [QHash.insert, QHash.value, hk] at h
    · simp [QHash.insert, QHash.value]
    · intro d hd
      cases hd
  obtain ⟨s, done, hrun, hempty, inv⟩ :=
    ServiceRoot.assembleCategoriesWhile_terminates self NO_PARENT_CATEGORY categories hids hnp
      hchain categories.length
      { categories := categories, assignments := QHash.insert NO_PARENT_CATEGORY self [],
        log := [] } [] inv0 (Nat.le_refl _)
  have hperm : done.Perm categories := by
    simpa using inv.perm
  have happ : done.filterMap (ServiceRoot.categoryTarget self NO_PARENT_CATEGORY categories)
      = s.log.filterMap TreeEvent.appended := by
    have hgen : ∀ (l : List (Int × RootItem)) (r : List (Nat × Nat)),
        l.map (ServiceRoot.categoryTarget self NO_PARENT_CATEGORY categories) = r.map some →
        l.filterMap (ServiceRoot.categoryTarget self NO_PARENT_CATEGORY categories) = r := by
      intro l
      induction l with
      | nil =>
          intro r h
          cases r with
          | nil => rfl
          | cons _ _ => simp at h
      | cons x xs ih =>
          intro r h
          cases r with
          | nil => simp at h
          | cons y ys =>
              simp only [List.map_cons, List.cons.injEq] at h
              simp [List.filterMap_cons, h.1, ih ys h.2]
    exact hgen _ _ inv.appended
  have hlen : (s.log.filterMap TreeEvent.appended).length = categories.length := by
    have h1 := congrArg List.length inv.appended
    simp only [List.length_map] at h1
    rw [← h1]
    exact hperm.length_eq
  have hp : (s.log.filterMap TreeEvent.appended).Perm
      (categories.filterMap (ServiceRoot.categoryTarget self NO_PARENT_CATEGORY categories)) := by
    rw [← happ]
    exact hperm.filterMap _
  refine ⟨s, hrun, hempty, hp, hlen, ?_, ?_⟩
  · intro c hc hroot
    apply (hp.mem_iff).mpr
    exact List.mem_filterMap.mpr ⟨c, hc, by simp [ServiceRoot.categoryTarget, hroot]⟩
  · intro c hc d hd hid
    apply (hp.mem_iff).mpr
    exact List.mem_filterMap.mpr ⟨c, hc,
      ServiceRoot.categoryTarget_of_parent self NO_PARENT_CATEGORY categories hids hnp c d hd hid⟩

/-- C20 at a concrete input: the two sample categories, child listed first,
under the service root at address 1.  The run needs two passes; it appends the
top-level category to the root and then the other one to it. -/
theorem assembleCategories_terminates_with_all_appended_witness :
    (∃ s : AssembleState,
      (∀ fuel : Nat, sampleCategories.length ≤ fuel →
        ServiceRoot.assembleCategories (sampleLeaf 1 .ServiceRoot 1) (-1) sampleCategories fuel
          = some s)
      ∧ s.categories = []
      ∧ (s.log.filterMap TreeEvent.appended).Perm
          (sampleCategories.filterMap
            (ServiceRoot.categoryTarget (sampleLeaf 1 .ServiceRoot 1) (-1) sampleCategories))
      ∧ (s.log.filterMap TreeEvent.appended).length = sampleCategories.length
      ∧ (∀ c ∈ sampleCategories, c.1 = -1 →
          ((sampleLeaf 1 .ServiceRoot 1).addr, c.2.addr) ∈ s.log.filterMap TreeEvent.appended)
      ∧ (∀ c ∈ sampleCategories, ∀ d ∈ sampleCategories, d.2.id = c.1 →
          (d.2.addr, c.2.addr) ∈ s.log.filterMap TreeEvent.appended))
    ∧ (ServiceRoot.assembleCategories (sampleLeaf 1 .ServiceRoot 1) (-1) sampleCategories 2).map
        (fun s => (s.categories.length, s.log))
        = some (0, [TreeEvent.appendChild 1 11, TreeEvent.appendChild 11 12])
    ∧ (ServiceRoot.assembleCategories (sampleLeaf 1 .ServiceRoot 1) (-1) sampleCategories 1).map
        (fun s => s.log) = none :=
  ⟨assembleCategories_terminates_with_all_appended (sampleLeaf 1 .ServiceRoot 1) (-1)
      sampleCategories (by decide) (by decide)
      (by
        intro c hc
        rcases List.mem_cons.mp hc with rfl | hc2
        · exact ServiceRoot.ReachesRoot.step (-1, sampleLeaf 11 .Category 5)
            (List.Mem.tail _ (List.Mem.head _)) ServiceRoot.ReachesRoot.root
        · rcases List.mem_cons.mp hc2 with rfl | hc3
          · exact ServiceRoot.ReachesRoot.root
          · cases hc3),
   by decide, by decide⟩

/-! Orphaned categories in `ServiceRoot::assembleCategories` -/

/-- A run of the `for` loop in which no entry it looks at has its parent id
among the keys of `assignments` keeps every entry and changes nothing else. -/
theorem ServiceRoot.assembleCategoriesFor_of_no_key (assignments : QHash)
    (log : List TreeEvent) (suffix : List (Int × RootItem)) :
    ∀ kept : List (Int × RootItem),
      (∀ c ∈ suffix, QHash.value c.1 assignments = none) →
      ServiceRoot.assembleCategoriesFor assignments log kept suffix
        = { categories := kept ++ suffix, assignments := assignments, log := log } := by
  induction suffix with
  | nil =>
      intro kept _
      simp [ServiceRoot.assembleCategoriesFor]
  | cons c rest ih =>
      intro kept h
      have hc : QHash.value c.1 assignments = none := h c (List.mem_cons_self _ _)
      have hrest : ∀ x ∈ rest, QHash.value x.1 assignments = none :=
        fun x hx => h x (List.mem_cons_of_mem _ hx)
      simp only [ServiceRoot.assembleCategoriesFor, hc]
      rw [ih (kept ++ [c]) hrest]
      simp

/-- A run of the `for` loop keeps an orphan pending: when the keys of
`assignments` are `NO_PARENT_CATEGORY` or ids of categories of the input, and
the pending entries are entries of the input, the same holds afterwards and the
orphan is still in the pending list. -/
theorem ServiceRoot.assembleCategoriesFor_keeps_orphan (NO_PARENT_CATEGORY : Int)
    (all : List (Int × RootItem)) (orphan : Int × RootItem)
    (hroot : orphan.1 ≠ NO_PARENT_CATEGORY)
    (hnone : ∀ d ∈ all, d.2.id ≠ orphan.1)
    (suffix : List (Int × RootItem)) :
    ∀ (assignments : QHash) (log : List TreeEvent) (kept : List (Int × RootItem)),
      orphan ∈ kept ++ suffix →
      (∀ e ∈ kept ++ suffix, e ∈ all) →
      (∀ (key : Int) (item : RootItem), QHash.value key assignments = some item →
        key = NO_PARENT_CATEGORY ∨ ∃ d ∈ all, d.2.id = key) →
      orphan ∈ (ServiceRoot.assembleCategoriesFor assignments log kept suffix).categories
      ∧ (∀ e ∈ (ServiceRoot.assembleCategoriesFor assignments log kept suffix).categories,
          e ∈ all)
      ∧ (∀ (key : Int) (item : RootItem),
          QHash.value key
            (ServiceRoot.assembleCategoriesFor assignments log kept suffix).assignments
            = some item →
          key = NO_PARENT_CATEGORY ∨ ∃ d ∈ all, d.2.id = key) := by
  induction suffix with
  | nil =>
      intro assignments log kept horphan hall hkeys
      simp only [List.append_nil] at horphan hall
      exact ⟨horphan, hall, hkeys⟩
  | cons c rest ih =>
      intro assignments log kept horphan hall hkeys
      cases hv : QHash.value c.1 assignments with
      | some parent =>
          have hstep : ServiceRoot.assembleCategoriesFor assignments log kept (c :: rest)
              = ServiceRoot.assembleCategoriesFor (QHash.insert c.2.id c.2 assignments)
                  (log ++ [TreeEvent.appendChild parent.addr c.2.addr]) kept rest := by
            simp [ServiceRoot.assembleCategoriesFor, hv]
          rw [hstep]
          have hcall : c ∈ all := hall c (by simp)
          have hne : orphan ≠ c := by
            intro he
            subst he
            rcases hkeys orphan.1 parent hv with h | ⟨d, hd, hid⟩
            · exact hroot h
            · exact hnone d hd hid
          apply ih
          · rcases List.mem_append.mp horphan with h | h
            · exact List.mem_append_left _ h
            · rcases List.mem_cons.mp h with h2 | h2
              · exact absurd h2 hne
              · exact List.mem_append_right _ h2
          · intro e he
            apply hall
            rcases List.mem_append.mp he with h | h
            · exact List.mem_append_left _ h
            · exact List.mem_append_right _ (List.mem_cons_of_mem _ h)
          · intro key item h
            by_cases hk : c.2.id = key
            · exact Or.inr ⟨c, hcall, hk⟩
            · simp [QHash.insert, QHash.value, hk] at h
              exact hkeys key item h
      | none =>
          have hstep : ServiceRoot.assembleCategoriesFor assignments log kept (c :: rest)
              = ServiceRoot.assembleCategoriesFor assignments log (kept ++ [c]) rest := by
            simp [ServiceRoot.assembleCategoriesFor, hv]
          rw [hstep]
          have heq : kept ++ c :: rest = (kept ++ [c]) ++ rest := by simp
          rw [heq] at horphan hall
          exact ih assignments log (kept ++ [c]) horphan hall hkeys

/-- C21: one pass of the inner `for` loop over a pending list in which no
parent id is a key of `assignments` leaves the pending list, the assignments
and everything else unchanged.  Hence, for an input that holds a category whose
parent id is neither `NO_PARENT_CATEGORY` nor the id of a category of the list,
the outer `while` loop never reaches an empty pending list: whatever the number
of passes allowed, `assembleCategories` does not end, and after every number of
passes the orphan is still pending.  `assembleFeeds`, in contrast, ends on a
loose feed: it writes a warning and appends nothing. -/
theorem assembleCategories_orphan_stays_pending (self : RootItem) (NO_PARENT_CATEGORY : Int)
    (categories : List (Int × RootItem)) (orphan : Int × RootItem)
    (hmem : orphan ∈ categories)
    (hroot : orphan.1 ≠ NO_PARENT_CATEGORY)
    (hnone : ∀ d ∈ categories, d.2.id ≠ orphan.1) :
    (∀ (assignments : QHash) (log : List TreeEvent) (pending : List (Int × RootItem)),
        (∀ c ∈ pending, QHash.value c.1 assignments = none) →
        ServiceRoot.assembleCategoriesPass
            { categories := pending, assignments := assignments, log := log }
          = { categories := pending, assignments := assignments, log := log })
    ∧ (∀ fuel : Nat,
        ServiceRoot.assembleCategories self NO_PARENT_CATEGORY categories fuel = none)
    ∧ (∀ passes : Nat,
        orphan ∈ (Nat.iterate ServiceRoot.assembleCategoriesPass passes
          (ServiceRoot.assembleCategoriesStart self NO_PARENT_CATEGORY categories)).categories)
    ∧ (∀ (known : QHash) (feed : RootItem),
        QHash.value orphan.1 known = none →
        ServiceRoot.assembleFeeds self NO_PARENT_CATEGORY known [(orphan.1, feed)]
          = [TreeEvent.qWarning]) := by
  have hstart : orphan ∈ (ServiceRoot.assembleCategoriesStart self NO_PARENT_CATEGORY
        categories).categories
      ∧ (∀ e ∈ (ServiceRoot.assembleCategoriesStart self NO_PARENT_CATEGORY
          categories).categories, e ∈ categories)
      ∧ (∀ (key : Int) (item : RootItem),
          QHash.value key (ServiceRoot.assembleCategoriesStart self NO_PARENT_CATEGORY
            categories).assignments = some item →
          key = NO_PARENT_CATEGORY ∨ ∃ d ∈ categories, d.2.id = key) := by
    refine ⟨hmem, fun e he => he, ?_⟩
    intro key item h
    by_cases hk : NO_PARENT_CATEGORY = key
    · exact Or.inl hk.symm
    · simp [ServiceRoot.assembleCategoriesStart, QHash.insert, QHash.value, hk] at h
  have hpass : ∀ s : AssembleState,
      (orphan ∈ s.categories
        ∧ (∀ e ∈ s.categories, e ∈ categories)
        ∧ (∀ (key : Int) (item : RootItem), QHash.value key s.assignments = some item →
            key = NO_PARENT_CATEGORY ∨ ∃ d ∈ categories, d.2.id = key)) →
      (orphan ∈ (ServiceRoot.assembleCategoriesPass s).categories
        ∧ (∀ e ∈ (ServiceRoot.assembleCategoriesPass s).categories, e ∈ categories)
        ∧ (∀ (key : Int) (item : RootItem),
            QHash.value key (ServiceRoot.assembleCategoriesPass s).assignments = some item →
            key = NO_PARENT_CATEGORY ∨ ∃ d ∈ categories, d.2.id = key)) := by
    intro s hs
    unfold ServiceRoot.assembleCategoriesPass
    apply ServiceRoot.assembleCategoriesFor_keeps_orphan NO_PARENT_CATEGORY categories orphan
      hroot hnone
    · simpa using hs.1
    · simpa using hs.2.1
    · exact hs.2.2
  have hwhile : ∀ (fuel : Nat) (s : AssembleState),
      (orphan ∈ s.categories
        ∧ (∀ e ∈ s.categories, e ∈ categories)
        ∧ (∀ (key : Int) (item : RootItem), QHash.value key s.assignments = some item →
            key = NO_PARENT_CATEGORY ∨ ∃ d ∈ categories, d.2.id = key)) →
      ServiceRoot.assembleCategoriesWhile fuel s = none := by
    intro fuel
    induction fuel with
    | zero =>
        intro s hs
        have hne : s.categories.isEmpty = false := by
          cases hc : s.categories with
          | nil =>
              have h := hs.1
              rw [hc] at h
              cases h
          | cons _ _ => rfl
        simp [ServiceRoot.assembleCategoriesWhile, hne]
    | succ f ih =>
        intro s hs
        have hne : s.categories.isEmpty = false := by
          cases hc : s.categories with
          | nil =>
              have h := hs.1
              rw [hc] at h
              cases h
          | cons _ _ => rfl
        simp only [ServiceRoot.assembleCategoriesWhile, hne]
        exact ih _ (hpass s hs)
  have hiter : ∀ (passes : Nat) (s : AssembleState),
      (orphan ∈ s.categories
        ∧ (∀ e ∈ s.categories, e ∈ categories)
        ∧ (∀ (key : Int) (item : RootItem), QHash.value key s.assignments = some item →
            key = NO_PARENT_CATEGORY ∨ ∃ d ∈ categories, d.2.id = key)) →
      orphan ∈ (Nat.iterate ServiceRoot.assembleCategoriesPass passes s).categories := by
    intro passes
    induction passes with
    | zero =>
        intro s hs
        exact hs.1
    | succ n ih =>
        intro s hs
        exact ih _ (hpass s hs)
  refine ⟨?_, ?_, ?_, ?_⟩
  · intro assignments log pending h
    unfold ServiceRoot.assembleCategoriesPass
    rw [ServiceRoot.assembleCategoriesFor_of_no_key assignments log pending [] h]
    simp
  · intro fuel
    exact hwhile fuel _ hstart
  · intro passes
    exact hiter passes _ hstart
  · intro known feed hv
    simp [ServiceRoot.assembleFeeds, hroot, hv]

/-- C21 at a concrete input: among the three sample categories the one with
parent id 99 is an orphan.  No amount of fuel ends the run, and after one pass
the orphan is the only pending entry, with the other two appended. -/
theorem assembleCategories_orphan_stays_pending_witness :
    (∀ fuel : Nat,
        ServiceRoot.assembleCategories (sampleLeaf 1 .ServiceRoot 1) (-1)
          sampleCategoriesWithOrphan fuel = none)
    ∧ (∀ passes : Nat,
        (99, sampleLeaf 13 .Category 8)
          ∈ (Nat.iterate ServiceRoot.assembleCategoriesPass passes
              (ServiceRoot.assembleCategoriesStart (sampleLeaf 1 .ServiceRoot 1) (-1)
                sampleCategoriesWithOrphan)).categories)
    ∧ ((ServiceRoot.assembleCategoriesPass
          (ServiceRoot.assembleCategoriesStart (sampleLeaf 1 .ServiceRoot 1) (-1)
            sampleCategoriesWithOrphan)).categories.map (fun c => (c.1, c.2.addr))
        = [(99, 13)])
    ∧ ((ServiceRoot.assembleCategoriesPass
          (ServiceRoot.assembleCategoriesStart (sampleLeaf 1 .ServiceRoot 1) (-1)
            sampleCategoriesWithOrphan)).log
        = [TreeEvent.appendChild 1 11, TreeEvent.appendChild 11 12]) :=
  ⟨(assembleCategories_orphan_stays_pending (sampleLeaf 1 .ServiceRoot 1) (-1)
      sampleCategoriesWithOrphan (99, sampleLeaf 13 .Category 8)
      (List.Mem.tail _ (List.Mem.head _)) (by decide) (by decide)).2.1,
   (assembleCategories_orphan_stays_pending (sampleLeaf 1 .ServiceRoot 1) (-1)
      sampleCategoriesWithOrphan (99, sampleLeaf 13 .Category 8)
      (List.Mem.tail _ (List.Mem.head _)) (by decide) (by decide)).2.2.1,
   by decide, by decide⟩

/-! Null safety and lock balance of the selection-driven slots -/

/-- Lock balance of `deleteSelectedItem`: on every path the lock is held after
the call exactly when it was held before it, and `unlock` is called once when
`tryLock` succeeded and never when it failed. -/
theorem FeedsView.deleteSelectedItem_lock_balance (v : FeedsView) (g : GuiAnswers) :
    (v.deleteSelectedItem g).feedUpdateLocked = v.feedUpdateLocked
    ∧ (v.since (v.deleteSelectedItem g)).count ViewEvent.unlock
        = (if v.feedUpdateLocked then 0 else 1) := by
  constructor
  · have hsel := FeedsView.selectedItem_tryLock v
    unfold FeedsView.deleteSelectedItem
    simp only [hsel]
    cases hl : v.feedUpdateLocked
    · cases hc : v.currentIndexValid
      · simp [FeedsView.tryLock, FeedsView.emit, FeedsView.unlock, hl, hc]
      · cases hs : v.selectedItem with
        | none =>
            simp [FeedsView.tryLock, FeedsView.emit, FeedsView.unlock, hl, hc]
        | some item =>
            cases hd : item.canBeDeleted
            · simp [FeedsView.tryLock, FeedsView.emit, FeedsView.unlock,
                FeedsView.showGuiMessage, hl, hc, hd]
            · by_cases hn : g.confirm = StandardButton.No
              · simp [FeedsView.tryLock, FeedsView.emit, FeedsView.unlock, hl, hc, hd, hn]
              · cases hr : (g.deleteViaGui item v.world).1 <;>
                  simp [FeedsView.tryLock, FeedsView.emit, FeedsView.unlock,
                    FeedsView.showGuiMessage, hl, hc, hd, hn, hr]
    · simp [FeedsView.tryLock, FeedsView.emit, FeedsView.showGuiMessage, hl]
  · rw [FeedsView.since_deleteSelectedItem]
    unfold FeedsView.deleteSelectedItemEvents
    cases hl : v.feedUpdateLocked
    · cases hc : v.currentIndexValid
      · simp [List.count_cons]
      · cases hs : v.selectedItem with
        | none => simp [List.count_cons]
        | some item =>
            cases hd : item.canBeDeleted
            · simp [hd, List.count_cons]
            · by_cases hn : g.confirm = StandardButton.No
              · simp [hd, hn, List.count_cons]
              · cases hr : (g.deleteViaGui item v.world).1 <;>
                  simp [hd, hn, hr, List.count_cons]
    · simp [List.count_cons]

/-- Lock balance of `editSelectedItem` when an item is selected: the slot
returns, the lock is held afterwards exactly when it was held before, and
`unlock` is called once when `tryLock` succeeded and never when it failed. -/
theorem FeedsView.editSelectedItem_lock_balance_of_selected (v : FeedsView) (g : GuiAnswers)
    (item : RootItem) (hs : v.selectedItem = some item) :
    (v.editSelectedItem g).isNullDereference = false
    ∧ (v.editSelectedItem g).view.feedUpdateLocked = v.feedUpdateLocked
    ∧ (v.since (v.editSelectedItem g).view).count ViewEvent.unlock
        = (if v.feedUpdateLocked then 0 else 1) := by
  have hsel := FeedsView.selectedItem_tryLock v
  rw [hs] at hsel
  cases hl : v.feedUpdateLocked
  · have hrun : ∃ ev : ViewEvent, ev ≠ ViewEvent.unlock
        ∧ v.editSelectedItem g
          = Outcome.returned
              { v with
                world := (if item.canBeEdited then g.editViaGui item v.world else v.world),
                log := v.log ++ [ViewEvent.tryLock true, ev, ViewEvent.unlock] } := by
      cases he : item.canBeEdited
      · refine ⟨ViewEvent.showGuiMessage GuiMessage.cannotEditUnsupported, by simp, ?_⟩
        unfold FeedsView.editSelectedItem
        simp only [hsel]
        simp [FeedsView.tryLock, FeedsView.emit, FeedsView.unlock,
          FeedsView.showGuiMessage, hl, he]
      · refine ⟨ViewEvent.editViaGui item.addr, by simp, ?_⟩
        unfold FeedsView.editSelectedItem
        simp only [hsel]
        simp [FeedsView.tryLock, FeedsView.emit, FeedsView.unlock, hl, he]
    obtain ⟨ev, hev, hrun⟩ := hrun
    rw [hrun]
    refine ⟨rfl, ?_, ?_⟩
    · simp [Outcome.view, hl]
    · simp [Outcome.view, FeedsView.since, List.count_cons, hev]
  · have hrun : v.editSelectedItem g
        = Outcome.returned
            { v with log := v.log ++ [ViewEvent.tryLock false,
                                       ViewEvent.showGuiMessage GuiMessage.cannotEditLocked] } := by
      simp [FeedsView.editSelectedItem, FeedsView.tryLock, FeedsView.emit,
        FeedsView.showGuiMessage, hl]
    rw [hrun]
    refine ⟨rfl, ?_, ?_⟩
    · simp [Outcome.view, hl]
    · simp [Outcome.view, FeedsView.since, List.count_cons]

/-- C23, evaluated on the code where the claim fails: with the feed-update
lock free and nothing selected, or with the root item selected,
`selectedItem` returns null and `editSelectedItem` calls `canBeEdited()`
through that null pointer; `deleteSelectedItem` in the same state checks for
null and returns. -/
theorem editSelectedItem_dereferences_null_selection :
    (sampleView false []).selectedItem.isNone = true
    ∧ ((sampleView false []).editSelectedItem (sampleGui StandardButton.Yes)).isNullDereference
        = true
    ∧ (sampleView false [sampleTree]).selectedItem.isNone = true
    ∧ ((sampleView false [sampleTree]).editSelectedItem
          (sampleGui StandardButton.Yes)).isNullDereference = true
    ∧ (sampleView false []).since
          ((sampleView false []).deleteSelectedItem (sampleGui StandardButton.Yes))
        = [ViewEvent.tryLock true, ViewEvent.unlock] := by
  decide

/-- C24, evaluated on the code where the claim fails: with the feed-update
lock free and nothing selected, `tryLock` in `editSelectedItem` succeeds, the
slot then goes through the null item pointer, `unlock` is never called and the
lock, free before the call, is left held. -/
theorem editSelectedItem_leaves_lock_held_on_null_selection :
    (sampleView false []).feedUpdateLocked = false
    ∧ ((sampleView false []).editSelectedItem (sampleGui StandardButton.Yes)).isNullDereference
        = true
    ∧ ((sampleView false []).editSelectedItem (sampleGui StandardButton.Yes)).view.log
        = [ViewEvent.tryLock true]
    ∧ ((sampleView false []).editSelectedItem
          (sampleGui StandardButton.Yes)).view.feedUpdateLocked = true := by
  decide

/-! Theorems about `DynamicShortcutsWidget::areShortcutsUnique` -/

/-- The loop of `areShortcutsUnique` answers true exactly when no remaining
binding has a non-empty shortcut that was collected before, and no two
remaining bindings share a non-empty shortcut. -/
theorem DynamicShortcutsWidget.areShortcutsUniqueLoop_iff (bindings : List ActionBinding) :
    ∀ all_shortcuts : List QKeySequence,
      DynamicShortcutsWidget.areShortcutsUniqueLoop all_shortcuts bindings = true
        ↔ (∀ b ∈ bindings, b.shortcut.isEmpty = false → b.shortcut ∉ all_shortcuts)
          ∧ bindings.Pairwise
              (fun a b => a.shortcut = b.shortcut → b.shortcut.isEmpty = true) := by
  induction bindings with
  | nil =>
      intro all_shortcuts
      simp [DynamicShortcutsWidget.areShortcutsUniqueLoop]
  | cons x rest ih =>
      intro all_shortcuts
      simp only [DynamicShortcutsWidget.areShortcutsUniqueLoop, List.pairwise_cons]
      by_cases hx : !x.shortcut.isEmpty && decide (x.shortcut ∈ all_shortcuts)
      · simp only [hx, if_true]
        simp only [Bool.and_eq_true, Bool.not_eq_true', decide_eq_true_eq] at hx
        constructor
        · intro h
          cases h
        · rintro ⟨h, _⟩
          exact absurd hx.2 (h x (List.mem_cons_self _ _) hx.1)
      · simp only [hx, Bool.false_eq_true, if_false]
        rw [ih]
        simp only [Bool.and_eq_true, Bool.not_eq_true', decide_eq_true_eq, not_and] at hx
        constructor
        · rintro ⟨h1, h2⟩
          refine ⟨?_, ?_, h2⟩
          · intro b hb hne
            rcases List.mem_cons.mp hb with rfl | hin
            · exact hx hne
            · intro hmem
              exact h1 b hin hne (List.mem_append_left _ hmem)
          · intro b hb heq
            cases hb2 : b.shortcut.isEmpty with
            | true => rfl
            | false =>
                exact absurd (List.mem_append_right _ (by simp [heq])) (h1 b hb hb2)
        · rintro ⟨h1, h2, h3⟩
          refine ⟨?_, h3⟩
          intro b hb hne hmem
          rcases List.mem_append.mp hmem with hm | hm
          · exact h1 b (List.mem_cons_of_mem _ hb) hne hm
          · simp only [List.mem_singleton] at hm
            have := h2 b hb hm.symm
            rw [hne] at this
            cases this

/-- The answer of `areShortcutsUnique` as a property of the list of bindings:
true exactly when no two bindings share a non-empty shortcut. -/
theorem DynamicShortcutsWidget.areShortcutsUnique_iff_pairwise (bindings : List ActionBinding) :
    DynamicShortcutsWidget.areShortcutsUnique bindings = true
      ↔ bindings.Pairwise (fun a b => a.shortcut = b.shortcut → b.shortcut.isEmpty = true) := by
  unfold DynamicShortcutsWidget.areShortcutsUnique
  rw [DynamicShortcutsWidget.areShortcutsUniqueLoop_iff]
  simp

/-- C22: `areShortcutsUnique` returns false if and only if two different
bindings (two different positions of the list) hold the same non-empty
shortcut.  In particular it returns true for an empty list and when every
shortcut is empty, bindings with an empty shortcut never change the answer,
and the answer does not depend on the order of the bindings. -/
theorem areShortcutsUnique_false_iff_shared_nonempty_shortcut
    (bindings : List ActionBinding) :
    (DynamicShortcutsWidget.areShortcutsUnique bindings = false
      ↔ ∃ (i j : Nat) (hi : i < bindings.length) (hj : j < bindings.length),
          i ≠ j ∧ bindings[i].shortcut = bindings[j].shortcut
          ∧ bindings[i].shortcut.isEmpty = false)
    ∧ DynamicShortcutsWidget.areShortcutsUnique [] = true
    ∧ ((∀ b ∈ bindings, b.shortcut.isEmpty = true) →
        DynamicShortcutsWidget.areShortcutsUnique bindings = true)
    ∧ DynamicShortcutsWidget.areShortcutsUnique
          (bindings.filter (fun b => !b.shortcut.isEmpty))
        = DynamicShortcutsWidget.areShortcutsUnique bindings
    ∧ (∀ reordered : List ActionBinding, bindings.Perm reordered →
        DynamicShortcutsWidget.areShortcutsUnique reordered
          = DynamicShortcutsWidget.areShortcutsUnique bindings) := by
  have hsymm : ∀ {x y : ActionBinding},
      (x.shortcut = y.shortcut → y.shortcut.isEmpty = true) →
      (y.shortcut = x.shortcut → x.shortcut.isEmpty = true) := by
    intro x y h heq
    rw [← heq]
    exact h heq.symm
  have hbool : ∀ l1 l2 : List ActionBinding,
      (DynamicShortcutsWidget.areShortcutsUnique l1 = true
        ↔ DynamicShortcutsWidget.areShortcutsUnique l2 = true) →
      DynamicShortcutsWidget.areShortcutsUnique l1
        = DynamicShortcutsWidget.areShortcutsUnique l2 := by
    intro l1 l2 h
    cases h1 : DynamicShortcutsWidget.areShortcutsUnique l1 <;>
      cases h2 : DynamicShortcutsWidget.areShortcutsUnique l2 <;> simp_all
  refine ⟨?_, rfl, ?_, ?_, ?_⟩
  · constructor
    · intro hfalse
      have hnot : ¬ bindings.Pairwise
          (fun a b => a.shortcut = b.shortcut → b.shortcut.isEmpty = true) := by
        intro hp
        rw [(DynamicShortcutsWidget.areShortcutsUnique_iff_pairwise bindings).mpr hp] at hfalse
        cases hfalse
      rw [List.pairwise_iff_getElem] at hnot
      simp only [not_forall] at hnot
      obtain ⟨i, j, hi, hj, hij, heq, hne⟩ := hnot
      refine ⟨i, j, hi, hj, Nat.ne_of_lt hij, heq, ?_⟩
      rw [heq]
      simpa using hne
    · rintro ⟨i, j, hi, hj, hij, heq, hne⟩
      cases hu : DynamicShortcutsWidget.areShortcutsUnique bindings with
      | false => rfl
      | true =>
          have hp := (DynamicShortcutsWidget.areShortcutsUnique_iff_pairwise bindings).mp hu
          rw [List.pairwise_iff_getElem] at hp
          rcases Nat.lt_or_gt_of_ne hij with hlt | hgt
          · have h := hp i j hi hj hlt heq
            rw [← heq, hne] at h
            cases h
          · have h := hp j i hj hi hgt heq.symm
            rw [hne] at h
            cases h
  · intro hall
    apply (DynamicShortcutsWidget.areShortcutsUnique_iff_pairwise bindings).mpr
    rw [List.pairwise_iff_getElem]
    intro i j hi hj _ _
    exact hall _ (List.getElem_mem _)
  · apply hbool
    rw [DynamicShortcutsWidget.areShortcutsUnique_iff_pairwise,
      DynamicShortcutsWidget.areShortcutsUnique_iff_pairwise]
    constructor
    · intro hp
      induction bindings with
      | nil => exact List.Pairwise.nil
      | cons x rest ih =>
          rw [List.pairwise_cons]
          cases hx : x.shortcut.isEmpty with
          | true =>
              simp only [List.filter_cons, hx, Bool.not_true, Bool.false_eq_true,
                if_false] at hp
              refine ⟨?_, ih hp⟩
              intro b _ heq
              rw [← heq]
              exact hx
          | false =>
              simp only [List.filter_cons, hx, Bool.not_false, if_true,
                List.pairwise_cons] at hp
              refine ⟨?_, ih hp.2⟩
              intro b hb heq
              cases hb2 : b.shortcut.isEmpty with
              | true => rfl
              | false =>
                  have hbf : b ∈ rest.filter (fun b => !b.shortcut.isEmpty) := by
                    simp [List.mem_filter, hb, hb2]
                  have := hp.1 b hbf heq
                  rw [hb2] at this
                  cases this
    · intro hp
      exact hp.filter _
  · intro reordered hperm
    apply hbool
    rw [DynamicShortcutsWidget.areShortcutsUnique_iff_pairwise,
      DynamicShortcutsWidget.areShortcutsUnique_iff_pairwise]
    exact (List.Perm.pairwise_iff hsymm hperm).symm

/-- C22 at concrete inputs: two bindings sharing the shortcut of key code 65
make the answer false whatever stands between them, two bindings with an empty
shortcut do not, and the answer is the same for a reordered list. -/
theorem areShortcutsUnique_false_iff_shared_nonempty_shortcut_witness :
    DynamicShortcutsWidget.areShortcutsUnique
        [⟨1, ⟨[65]⟩⟩, ⟨2, ⟨[]⟩⟩, ⟨3, ⟨[65]⟩⟩] = false
    ∧ DynamicShortcutsWidget.areShortcutsUnique [⟨1, ⟨[]⟩⟩, ⟨2, ⟨[]⟩⟩, ⟨3, ⟨[65]⟩⟩] = true
    ∧ DynamicShortcutsWidget.areShortcutsUnique [⟨3, ⟨[65]⟩⟩, ⟨2, ⟨[]⟩⟩, ⟨1, ⟨[]⟩⟩]
        = DynamicShortcutsWidget.areShortcutsUnique [⟨1, ⟨[]⟩⟩, ⟨2, ⟨[]⟩⟩, ⟨3, ⟨[65]⟩⟩] :=
  ⟨(areShortcutsUnique_false_iff_shared_nonempty_shortcut
      [⟨1, ⟨[65]⟩⟩, ⟨2, ⟨[]⟩⟩, ⟨3, ⟨[65]⟩⟩]).1.mpr
      ⟨0, 2, by decide, by decide, by decide, by decide, by decide⟩,
   by decide,
   (areShortcutsUnique_false_iff_shared_nonempty_shortcut
      [⟨1, ⟨[]⟩⟩, ⟨2, ⟨[]⟩⟩, ⟨3, ⟨[65]⟩⟩]).2.2.2.2
      [⟨3, ⟨[65]⟩⟩, ⟨2, ⟨[]⟩⟩, ⟨1, ⟨[]⟩⟩] (by decide)⟩

/-! Theorems about `SkinFactory::installedSkins` -/

/-- When `skinInfo` stores true through `ok`, the skin it returns has a
non-empty author, version, base name, e-mail and layout markup. -/
theorem SkinFactory.skinInfoIn_loaded_of_ok (env : SkinEnvironment) (skin_name : String)
    (folders : List String)
    (h : (SkinFactory.skinInfoIn env skin_name folders).2 = some true) :
    (SkinFactory.skinInfoIn env skin_name folders).1.loadedSuccessfully = true := by
  induction folders with
  | nil => simp [SkinFactory.skinInfoIn] at h
  | cons base rest ih =>
      unfold SkinFactory.skinInfoIn at h ⊢
      by_cases hex : env.fileExists
          (base ++ env.separator ++ skin_name ++ env.separator ++ env.APP_SKIN_METADATA_FILE)
            = true
      · simp only [hex, if_true] at h ⊢
        cases hmd : env.readMetadata
            (base ++ env.separator ++ skin_name ++ env.separator ++ env.APP_SKIN_METADATA_FILE)
          with
        | none => simp [hmd] at h
        | some metadata =>
            simp only [hmd] at h ⊢
            simpa using h
      · simp only [hex, Bool.false_eq_true, if_false] at h ⊢
        exact ih h

/-- When no base folder holds a metadata file for a name, `skinInfo` stores
nothing through `ok` and returns the default-constructed skin. -/
theorem SkinFactory.skinInfoIn_of_no_metadata (env : SkinEnvironment) (skin_name : String)
    (folders : List String)
    (h : ∀ base ∈ folders,
      env.fileExists
        (base ++ env.separator ++ skin_name ++ env.separator ++ env.APP_SKIN_METADATA_FILE)
          = false) :
    SkinFactory.skinInfoIn env skin_name folders = (Skin.empty, none) := by
  induction folders with
  | nil => rfl
  | cons base rest ih =>
      unfold SkinFactory.skinInfoIn
      simp only [h base (List.mem_cons_self _ _), Bool.false_eq_true, if_false]
      exact ih (fun b hb => h b (List.mem_cons_of_mem _ hb))

/-- C25, evaluated on the code where the claim fails: the skin folder holds
the directory "base", which loads, and after it the directory "empty", which
has no metadata file in either base folder.  For "empty", `skinInfo` stores
nothing through `ok` and returns the default-constructed skin; the flag of
`installedSkins` still holds the true of "base", so the list gets a second
entry whose author, version, base name, e-mail and layout markup are all
empty. -/
theorem installedSkins_appends_skin_without_metadata :
    SkinFactory.skinInfo sampleSkinEnvironment "empty" = (Skin.empty, none)
    ∧ (SkinFactory.skinInfo sampleSkinEnvironment "base").2 = some true
    ∧ (SkinFactory.installedSkins sampleSkinEnvironment false).map
          (fun skin => (skin.m_baseName, skin.m_author, skin.m_layoutMarkup))
        = [("base", "someone", "<img src=skins/base/a.png>"), ("", "", "")]
    ∧ (SkinFactory.installedSkins sampleSkinEnvironment false).map Skin.loadedSuccessfully
        = [true, false] := by
  decide

end RssGuard
